import Mathlib

/- Verification of the tally and seat-allocation engine of the
elective_offices_server repository.  The Python sources embedded here are
src/calc/calc.py and src/helpers/db.py; Python dicts are modelled as
association lists that keep insertion order, absent/null JSON values as
Option, Python float arithmetic on vote quotients as exact rational
arithmetic, and HTTP-level failure as an Except error value. -/

namespace ElectiveOffices

/-! ### String normalization (calc.py `_norm`, lines 214-225; an identical
copy lives in helpers/utils.py and as a local helper inside db.py
`get_seats`). -/

/-- Python `str.lower()` restricted to the alphabet this application uses:
ASCII letters plus the six Spanish accented letters that `_norm` replaces
(and their uppercase forms). -/
def pyLowerChar (c : Char) : Char :=
  if c.isUpper then c.toLower
  else if c = 'Á' then 'á' else if c = 'É' then 'é'
  else if c = 'Í' then 'í' else if c = 'Ó' then 'ó'
  else if c = 'Ú' then 'ú' else if c = 'Ü' then 'ü'
  else if c = 'Ñ' then 'ñ' else c

/-- Python `s.lower()` (restricted as above), on the character list of the
string.  Strings are processed as their character lists throughout so that
every operation is structural recursion. -/
def pyLower (cs : List Char) : List Char := cs.map pyLowerChar

/-- Replacement table of `_norm` (calc.py lines 217-222): the six accented
characters mapped to unaccented ASCII. -/
def replAccent (c : Char) : Char :=
  if c = 'á' then 'a' else if c = 'é' then 'e' else if c = 'í' then 'i'
  else if c = 'ó' then 'o' else if c = 'ú' then 'u' else if c = 'ü' then 'u'
  else if c = 'ñ' then 'n' else c

/-- Python `str.strip()`: drop leading and trailing whitespace. -/
def pyStrip (cs : List Char) : List Char :=
  ((cs.dropWhile Char.isWhitespace).reverse.dropWhile Char.isWhitespace).reverse

/-- Python `s.split()` (no separator): the maximal runs of non-whitespace
characters. -/
def pyWords (cs : List Char) : List (List Char) :=
  (cs.foldr
    (fun c ws =>
      if c.isWhitespace then [] :: ws
      else
        match ws with
        | [] => [[c]]
        | w :: rest => (c :: w) :: rest)
    []).filter (fun w => w ≠ [])

/-- Python `" ".join(words)`. -/
def spaceJoin (ws : List (List Char)) : List Char :=
  (List.intersperse [' '] ws).flatten

/-- calc.py `_norm`: lower-case, strip, replace accented characters,
collapse internal whitespace runs to one space
(`" ".join(s.split())`). -/
def norm (s : String) : String :=
  ⟨spaceJoin (pyWords ((pyStrip (pyLower s.data)).map replAccent))⟩

/-! ### Python counter dicts as association lists. -/

/-- A Python dict from string keys to integer counters, in insertion
order. -/
abbrev VMap := List (String × Nat)

/-- Python `m.get(g, 0)`. -/
def getv (m : VMap) (g : String) : Nat :=
  match m.find? (fun p => p.1 == g) with
  | some p => p.2
  | none => 0

/-- Python `m[g] = v` on a dict: overwrite in place, or append a fresh key
at the end (dicts keep insertion order). -/
def setv (m : VMap) (g : String) (v : Nat) : VMap :=
  if m.any (fun p => p.1 == g) then
    m.map (fun p => if p.1 == g then (g, v) else p)
  else m ++ [(g, v)]

/-- Python `m[g] += d` for a key assumed present. -/
def addv (m : VMap) (g : String) (d : Nat) : VMap :=
  m.map (fun p => if p.1 == g then (p.1, p.2 + d) else p)

/-- Sum of the values of a counter dict, Python `sum(m.values())`. -/
def sumv (m : VMap) : Nat := (m.map Prod.snd).sum

/-! ### Vote rows and the aggregator (calc.py `_aggregate_votes`,
lines 232-254). -/

/-- A preprocessed vote row, with the fields read by `_aggregate_votes`
and by the territorial-context inference of db.py `get_seats`.  `none`
models an absent or null JSON field; `voteNumber` is the already
int-parsed value of `int(r.get("vote_number") or 0)` before the `or 0`
default, so `none` stands for an absent/falsy raw value. -/
structure VoteRow where
  voteType : Option Int
  voteNumber : Option Int
  groupId : Option String
  tipoEscala : Option String
  nombreEscala : Option String
deriving DecidableEq, Repr

/-- Python `str(r.get("group_id") or "0")` (calc.py line 247): a missing,
null or empty group id becomes the literal group "0". -/
def rowGid (r : VoteRow) : String :=
  match r.groupId with
  | none => "0"
  | some g => if g = "" then "0" else g

/-- calc.py line 239: `type_names = {1: "impugnado", 2: "recurrido",
3: "comando", 5: "en_blanco", 6: "nulo"}`, read through `.get`. -/
def typeName (vt : Int) : Option String :=
  if vt = 1 then some "impugnado" else if vt = 2 then some "recurrido"
  else if vt = 3 then some "comando" else if vt = 5 then some "en_blanco"
  else if vt = 6 then some "nulo" else none

/-- calc.py line 240: `{name: 0 for name in type_names.values()}`. -/
def initOthers : VMap :=
  [("impugnado", 0), ("recurrido", 0), ("comando", 0), ("en_blanco", 0), ("nulo", 0)]

/-- One iteration of the row loop of `_aggregate_votes`
(calc.py lines 242-252).  `max(0, vn)` is `Int.toNat`. -/
def aggStep (acc : VMap × VMap) (r : VoteRow) : VMap × VMap :=
  let vn : Int := r.voteNumber.getD 0
  match r.voteType with
  | some vt =>
      if vt = 0 then
        let gid := rowGid r
        (setv acc.1 gid (getv acc.1 gid + vn.toNat), acc.2)
      else
        match typeName vt with
        | some name => (acc.1, addv acc.2 name vn.toNat)
        | none => acc
  | none => acc

/-- calc.py `_aggregate_votes`: positive votes summed per group, the five
other categories summed globally. -/
def aggregateVotes (rows : List VoteRow) : VMap × VMap :=
  rows.foldl aggStep ([], initOthers)

/-- Closed form of the positive total a single group receives. -/
def posSum (rows : List VoteRow) (g : String) : Nat :=
  (rows.map (fun r =>
    if r.voteType = some 0 ∧ rowGid r = g then (r.voteNumber.getD 0).toNat else 0)).sum

/-- Closed form of the global total of one non-positive category
name. -/
def otherSum (rows : List VoteRow) (name : String) : Nat :=
  (rows.map (fun r =>
    match r.voteType with
    | some vt => if vt ≠ 0 ∧ typeName vt = some name then (r.voteNumber.getD 0).toNat else 0
    | none => 0)).sum

/-! ### Exact rational arithmetic for Python float expressions.

The Python source computes vote quotients, quotas and percentages with
float arithmetic; the model uses exact rationals.  The helpers below are
written on top of `Rat.divInt` and the `num`/`den` fields (rather than the
field-structure operations) so that every concrete allocation evaluates
inside the kernel; the bridge lemmas right after each definition identify
them with the standard Mathlib operations. -/

/-- Exact value of Python `a / b` (with `/ 0 = 0`, never hit by the
embedded code because every divisor is checked positive first). -/
def qdiv (a b : ℚ) : ℚ := Rat.divInt (a.num * b.den) (a.den * b.num)

/-- Exact value of Python `a * b`. -/
def qmul (a b : ℚ) : ℚ := Rat.divInt (a.num * b.num) (a.den * b.den)

/-- Exact value of Python `a - b`. -/
def qsub (a b : ℚ) : ℚ := Rat.divInt (a.num * b.den - b.num * a.den) (a.den * b.den)

/-- Python `math.floor`-style truncation of a rational toward negative
infinity (`int(x // 1)`); `Int.ediv` is floor division for the positive
denominator of a normalized rational. -/
def qfloor (q : ℚ) : Int := Int.ediv q.num q.den

/-! ### The seat-count catalog (seats_jsonl lines) and db.py `get_seats`
(lines 56-216). -/

/-- One parsed line of the seats_jsonl catalog, with the fields read by
db.py `get_seats` and by the catalog branch of calc.py
`_resolve_seats_from_jsonl_or_meta`.  `none` models an absent (or null)
JSON field; `cantidadCargos` / `seats` hold the integer value of the
field when it parses as an int (a line whose count fails to parse is
skipped by both readers, which is the same as contributing nothing, so it
needs no separate representation). -/
structure SeatItem where
  nombreCargo : Option String
  category : Option String
  tipoEscala : Option String
  nombreEscala : Option String
  cantidadCargos : Option Int
  seats : Option Int
deriving DecidableEq, Repr

/-- Python truthiness of an optional string (`if x:`): present and
non-empty. -/
def optTruthy : Option String → Bool
  | none => false
  | some s => s ≠ ""

/-- db.py `_mode` (lines 96-103): frequency table of the normalized
non-falsy values in first-appearance order, then Python
`max(freq, key=freq.get)`, which scans the dict in insertion order and
keeps the first strictly-greatest count. -/
def modeOf (values : List (Option String)) : Option String :=
  let freq := values.foldl
    (fun (m : VMap) v =>
      match v with
      | none => m
      | some s => if s = "" then m else setv m (norm s) (getv m (norm s) + 1))
    []
  match freq with
  | [] => none
  | p :: rest => some ((rest.foldl (fun (best : String × Nat) q =>
      if q.2 > best.2 then q else best) p).1)

/-- db.py `_match_office` (lines 154-156): normalized equality with the
normalized office parameter, itself mandatory in every layer. -/
def matchOffice (officeN : String) (it : SeatItem) : Bool :=
  norm (it.nombreCargo.getD "") == officeN

/-- db.py `_match_category` (lines 158-161): an item that carries a
category must match the normalized election category; an item without one
passes (it is only filtered when the layer requires a category). -/
def matchCategory (categoryN : String) (it : SeatItem) : Bool :=
  match it.category with
  | some c => norm c == categoryN
  | none => true

/-- db.py `_match_ctx` (lines 163-171): when a territorial context was
computed, each computed component must match the item's normalized
field. -/
def matchCtx (ctxTipo ctxNombre : Option String) (it : SeatItem) : Bool :=
  if ¬ optTruthy ctxTipo ∧ ¬ optTruthy ctxNombre then true
  else
    (if optTruthy ctxTipo then norm (it.tipoEscala.getD "") == ctxTipo.getD "" else true)
    && (if optTruthy ctxNombre then norm (it.nombreEscala.getD "") == ctxNombre.getD "" else true)

/-- The inner item loop of one layer of db.py `get_seats`
(lines 182-204): office match always required, category and context
matches only when the layer requires them, and each kept item adds
`int(it.get("cantidad_cargos", 0) or 0)` — absent or null counts 0. -/
def layerSum (officeN categoryN : String) (ctxTipo ctxNombre : Option String)
    (requireCategory requireCtx : Bool) (items : List SeatItem) : Int :=
  items.foldl
    (fun acc it =>
      if ¬ matchOffice officeN it then acc
      else if requireCategory ∧ ¬ matchCategory categoryN it then acc
      else if requireCtx ∧ ¬ matchCtx ctxTipo ctxNombre it then acc
      else acc + it.cantidadCargos.getD 0)
    0

/-- The nested layer loop of db.py `get_seats` (lines 180-208):
`require_category` in (True, False) outer, `require_ctx` in (True, False)
inner, returning the first layer whose sum is strictly positive. -/
def layerSearch (officeN categoryN : String) (ctxTipo ctxNombre : Option String)
    (items : List SeatItem) : List (Bool × Bool) → Option Int
  | [] => none
  | l :: ls =>
      let s := layerSum officeN categoryN ctxTipo ctxNombre l.1 l.2 items
      if s > 0 then some s
      else layerSearch officeN categoryN ctxTipo ctxNombre items ls

/-- The layer order produced by the two nested `for` loops. -/
def layerOrder : List (Bool × Bool) :=
  [(true, true), (true, false), (false, true), (false, false)]

/-- db.py `get_seats`, from the point where the catalog lines are parsed
(the file read of lines 124-151 is modelled by the `items` argument; a
missing or unreadable file is the empty list).  `metaSeats` is the parsed
value of `meta["seats"]` used by the final fallback of lines 210-216
(`int(meta.get("seats", 0) or 0)`, absent / null / unparsable all
yielding 0 — modelled as `none`). -/
def get_seats (metaSeats : Option Int) (items : List SeatItem) (rows : List VoteRow)
    (electionCategory office : String) : Int :=
  let ctxTipo := modeOf (rows.map (fun r => r.tipoEscala))
  let ctxNombre := modeOf (rows.map (fun r => r.nombreEscala))
  let officeN := norm office
  let categoryN := norm electionCategory
  match layerSearch officeN categoryN ctxTipo ctxNombre items layerOrder with
  | some s => s
  | none => metaSeats.getD 0

/-! ### Python sorting with `key=..., reverse=True`.

Python compares sort keys (tuples) lexicographically and its sort is
stable; a stable sort with respect to a total preorder is uniquely
determined by the key, so `List.insertionSort` with the "not smaller key"
relation computes exactly the list Python's sort produces. -/

/-- Python string comparison: lexicographic by code point. -/
def charsLt : List Char → List Char → Bool
  | [], [] => false
  | [], _ :: _ => true
  | _ :: _, [] => false
  | a :: as, b :: bs => if a < b then true else if b < a then false else charsLt as bs

/-- Python `a < b` on strings. -/
def strLt (a b : String) : Bool := charsLt a.data b.data

/-- The sort-key shape used by every ranking in calc.py:
`(quotient_or_count, raw_vote_total, group_id)`, compared as a Python
tuple. -/
abbrev RankKey := ℚ × ℕ × String

/-- Lexicographic comparison of Python key tuples. -/
def keyLt (a b : RankKey) : Bool :=
  if a.1 < b.1 then true else if b.1 < a.1 then false
  else if a.2.1 < b.2.1 then true else if b.2.1 < a.2.1 then false
  else strLt a.2.2 b.2.2

/-- The "may come before" relation of a Python descending sort: the key is
not smaller. -/
def keyGe (a b : RankKey) : Bool := ! keyLt a b

/-- Python `l.sort(key=key, reverse=True)` (stable descending sort). -/
def pySortDesc {α : Type} (key : α → RankKey) (l : List α) : List α :=
  List.insertionSort (fun a b => keyGe (key a) (key b) = true) l

/-! ### The five allocation algorithms (calc.py lines 261-408). -/

/-- The fresh all-zero allocation `{gid: 0 for gid in votes.keys()}`. -/
def zeros (votes : VMap) : VMap := votes.map (fun p => (p.1, 0))

/-- Diagnostic metadata of `_alloc_dhondt`; optional fields appear only in
the branch that sets them. -/
structure DhondtMeta where
  seats : Int
  note : Option String := none
  totalVotes : Option Nat := none
  picksPreview : Option (List (String × ℚ × ℕ)) := none
deriving DecidableEq, Repr

/-- The quotient table of calc.py lines 269-272: for each group, the
entries `(v / d, gid, d)` for `d` from 1 to `seats` (exact rationals for
the float quotients; the preview's 6-decimal formatting is not
modelled). -/
def dhondtQuotients (votes : VMap) (seats : Nat) : List (ℚ × String × ℕ) :=
  votes.flatMap (fun p =>
    (List.range seats).map (fun i => (qdiv (p.2 : ℚ) (((i + 1 : ℕ)) : ℚ), p.1, i + 1)))

/-- The sort key of calc.py line 273: `(x[0], votes[x[1]], x[1])`. -/
def dhondtKey (votes : VMap) (e : ℚ × String × ℕ) : RankKey :=
  (e.1, getv votes e.2.1, e.2.1)

/-- calc.py `_alloc_dhondt` (lines 261-284). -/
def allocDhondt (votes : VMap) (seats : Int) : VMap × DhondtMeta :=
  let result := zeros votes
  if seats ≤ 0 ∨ votes = [] then
    (result, { seats := seats, note := some "sin asignación (seats<=0 o sin votos)" })
  else
    let picks := (pySortDesc (dhondtKey votes) (dhondtQuotients votes seats.toNat)).take seats.toNat
    let res := picks.foldl (fun m e => setv m e.2.1 (getv m e.2.1 + 1)) result
    (res, { seats := seats, totalVotes := some (sumv votes),
            picksPreview := some (picks.map (fun e => (e.2.1, e.1, e.2.2))) })

/-- Diagnostic metadata of `_alloc_hare`. -/
structure HareMeta where
  seats : Int
  totalVotes : Nat
  note : Option String := none
  quotaHare : Option ℚ := none
  assignedFloor : Option Nat := none
  remainingAfterFloor : Option Nat := none
deriving DecidableEq, Repr

/-- calc.py line 301, `int(v // quota)`: floor division of the vote count
by the quota (never negative, since votes and quota are). -/
def hareFloor (v : Nat) (quota : ℚ) : Nat := (qfloor (qdiv (v : ℚ) quota)).toNat

/-- The sort key of calc.py line 307: `(x[0], votes[x[1]], x[1])` on
`(remainder, gid)` pairs. -/
def hareKey (votes : VMap) (e : ℚ × String) : RankKey := (e.1, getv votes e.2, e.2)

/-- calc.py `_alloc_hare` (lines 287-318). -/
def allocHare (votes : VMap) (seats : Int) : VMap × HareMeta :=
  let result := zeros votes
  let total := sumv votes
  if seats ≤ 0 ∨ (total : Int) ≤ 0 ∨ votes = [] then
    (result, { seats := seats, totalVotes := total, note := some "sin asignación" })
  else
    let quota : ℚ := qdiv (total : ℚ) (seats : ℚ)
    let floors := votes.map (fun p => (p.1, hareFloor p.2 quota))
    let assigned : Nat := sumv floors
    let remainders : List (ℚ × String) :=
      votes.map (fun p => (qsub (p.2 : ℚ) (qmul ((hareFloor p.2 quota : ℕ) : ℚ) quota), p.1))
    let remaining : Int := seats - (assigned : Int)
    let sortedRem := pySortDesc (hareKey votes) remainders
    let res := (sortedRem.take (max 0 remaining).toNat).foldl (fun m e => addv m e.2 1) floors
    (res, { seats := seats, totalVotes := total, quotaHare := some quota,
            assignedFloor := some assigned,
            remainingAfterFloor := some (max 0 remaining).toNat })

/-- The ranking key of calc.py lines 333, 364, 382:
`(kv[1], kv[0])` on `(gid, count)` dict items, embedded into `RankKey`
(the middle component repeats the count, so the comparison is exactly the
two-tuple comparison). -/
def rankPairKey (p : String × Nat) : RankKey := ((p.2 : ℚ), p.2, p.1)

/-- `sorted(votes.items(), key=lambda kv: (kv[1], kv[0]), reverse=True)`. -/
def orderedVotes (votes : VMap) : VMap := pySortDesc rankPairKey votes

/-- Python `round()`: nearest integer, halves to even. -/
def pyRound (q : ℚ) : Int :=
  let f := qfloor q
  let frac := qsub q ((f : ℤ) : ℚ)
  if frac > mkRat 1 2 then f + 1
  else if frac < mkRat 1 2 then f
  else if f % 2 = 0 then f else f + 1

/-- Diagnostic metadata of `_alloc_lista_incompleta`. -/
structure ListaMeta where
  seats : Int
  note : Option String := none
  ranking : Option (List String) := none
  rule : Option String := none
deriving DecidableEq, Repr

/-- calc.py `_alloc_lista_incompleta` (lines 321-354).  The `[]` branch of
the match is unreachable (`votes ≠ []` and sorting permutes). -/
def allocListaIncompleta (votes : VMap) (seats : Int) : VMap × ListaMeta :=
  let result := zeros votes
  if seats ≤ 0 ∨ votes = [] then
    (result, { seats := seats, note := some "sin asignación" })
  else
    match orderedVotes votes with
    | [] => (result, { seats := seats, note := some "sin asignación" })
    | first :: rest =>
      let firstGid := first.1
      let secondGid : Option String := rest.head?.map (fun p => p.1)
      let meta : ListaMeta :=
        { seats := seats, ranking := some (((first :: rest).take 2).map (fun p => p.1)),
          rule := some "2/1 o 2/3-1/3" }
      if seats = 3 then
        let r1 := setv result firstGid 2
        (if optTruthy secondGid then setv r1 (secondGid.getD "") 1 else r1, meta)
      else if seats = 2 then (setv result firstGid 2, meta)
      else if seats = 1 then (setv result firstGid 1, meta)
      else
        let firstShare := max 1 (min seats (pyRound (qmul ((seats : ℤ) : ℚ) (qdiv 2 3))))
        let secondShare := seats - firstShare
        let r1 := setv result firstGid firstShare.toNat
        (if optTruthy secondGid ∧ secondShare > 0 then
          setv r1 (secondGid.getD "") secondShare.toNat
        else r1, meta)

/-- Diagnostic metadata of `_alloc_mayoria_simple`. -/
structure SimpleMeta where
  seats : Int
  note : Option String := none
  winner : Option String := none
deriving DecidableEq, Repr

/-- calc.py `_alloc_mayoria_simple` (lines 357-367).  Python `max` with a
key scans left to right and replaces the current best only on a strictly
greater key. -/
def allocMayoriaSimple (votes : VMap) (seats : Int) : VMap × SimpleMeta :=
  let result := zeros votes
  if seats ≤ 0 ∨ votes = [] then
    (result, { seats := seats, note := some "sin asignación" })
  else
    match votes with
    | [] => (result, { seats := seats, note := some "sin asignación" })
    | p :: rest =>
      let winner := (rest.foldl (fun best q =>
        if keyLt (rankPairKey best) (rankPairKey q) then q else best) p).1
      (setv result winner seats.toNat, { seats := seats, winner := some winner })

/-- Diagnostic metadata of `_eval_balotaje`. -/
structure BalotajeMeta where
  seats : Option Int := none
  note : Option String := none
  totalPositive : Option Nat := none
  first : Option (String × Nat × ℚ) := none
  second : Option (String × Nat × ℚ) := none
  leadPoints : Option ℚ := none
  winFirstRound : Option Bool := none
  requiresRunoff : Option Bool := none
  rule : Option String := none
deriving DecidableEq, Repr

/-- calc.py `_eval_balotaje` (lines 370-408), with the float percentages
as exact rationals. -/
def evalBalotaje (votes : VMap) (seats : Int) : VMap × BalotajeMeta :=
  let result := zeros votes
  let total := sumv votes
  if (total : Int) ≤ 0 ∨ votes = [] then
    (result, { seats := some seats, note := some "sin asignación (sin votos)" })
  else
    match orderedVotes votes with
    | [] => (result, { seats := some seats, note := some "sin asignación (sin votos)" })
    | first :: rest =>
      let firstGid := first.1
      let firstVotes := first.2
      let second : Option (String × Nat) := rest.head?
      let secondVotes : Nat := (second.map (fun p => p.2)).getD 0
      let p1 : ℚ := qmul (qdiv ((firstVotes : ℕ) : ℚ) ((total : ℕ) : ℚ)) 100
      let p2 : ℚ := qmul (qdiv ((secondVotes : ℕ) : ℚ) ((total : ℕ) : ℚ)) 100
      let lead : ℚ := qsub p1 p2
      let winFirstRound : Bool := decide (p1 ≥ 45) || (decide (p1 ≥ 40) && decide (lead ≥ 10))
      let targetSeats : Int := if seats > 0 then seats else 1
      let res := if winFirstRound then setv result firstGid targetSeats.toNat else zeros votes
      (res,
       { totalPositive := some total,
         first := some (firstGid, firstVotes, p1),
         second := if optTruthy (second.map (fun p => p.1)) then
             some ((second.map (fun p => p.1)).getD "", secondVotes, p2)
           else none,
         leadPoints := some lead, winFirstRound := some winFirstRound,
         requiresRunoff := some (! winFirstRound), rule := some "45% o 40%+10" })

/-! ### calc.py `_resolve_seats_from_jsonl_or_meta` (lines 134-205) and
`do_calc` (lines 13-127). -/

/-- The db.json entry node for one office, with the fields read by
calc.py.  `seats` is the int-parsed value of `meta["seats"]` (`none`
models absent, null, or a value `int()` cannot parse, all of which fall
through to the catalog branch). -/
structure EntryMeta where
  seats : Option Int
  nombreCargo : Option String
  officeName : Option String
  preprocessedJson : Option String
deriving DecidableEq, Repr

/-- The name `load_jsonl` is called at calc.py line 173 but is neither
defined in src/calc/calc.py nor imported by it (lines 1-7 bring in only
load_db, save_db, HTTPException, json, DATA_DIR, _now_iso and
log_append); the loaders `load_jsonl` of src/routers/main.py and
`_load_jsonl` of src/helpers/db.py are not visible in calc.py's module
namespace.  Evaluating the call therefore raises NameError inside the
`try` of lines 172-175, and the blanket `except Exception` returns 0. -/
def loadJsonlDefinedInCalc : Bool := false

/-- Python `str.strip()` on a `String`. -/
def pyStripS (s : String) : String := ⟨pyStrip s.data⟩

/-- calc.py `_resolve_seats_from_jsonl_or_meta`.  The db navigation is
modelled by the `entry` argument (`none` is the KeyError path), the
`seats_jsonl` path and its existence check by `seatsJsonlRel` and
`seatsFileExists`, and the catalog file contents that `load_jsonl` would
return by `items`. -/
def resolveSeatsFromJsonlOrMeta (entry : Option EntryMeta) (seatsJsonlRel : Option String)
    (seatsFileExists : Bool) (items : List SeatItem) (office : String) : Int :=
  match entry with
  | none => 0
  | some meta =>
    let step2 : Int :=
      if ¬ optTruthy seatsJsonlRel then 0
      else if ¬ seatsFileExists then 0
      else if ¬ loadJsonlDefinedInCalc then 0
      else
        let candidates :=
          ([pyStripS (meta.nombreCargo.getD ""), pyStripS (meta.officeName.getD ""),
            pyStripS office]).filter (fun c => c ≠ "")
        if candidates = [] then 0
        else
          let candNorm := candidates.map norm
          let total : Int := items.foldl
            (fun acc it =>
              let nombreCargo := norm (it.nombreCargo.getD "")
              if nombreCargo = "" then acc
              else if candNorm.contains nombreCargo then
                acc + (match it.seats with | some n => n | none => 1)
              else acc)
            0
          max 0 total
    match meta.seats with
    | some s => if s > 0 then s else step2
    | none => step2

/-- The per-method metadata record stored in `seats_info["meta"]` by
`do_calc` lines 73-94. -/
inductive AllocInfo
  | dhondt (m : DhondtMeta)
  | hare (m : HareMeta)
  | listaIncompleta (m : ListaMeta)
  | mayoriaSimple (m : SimpleMeta)
  | balotaje (m : BalotajeMeta)
  | unsupported (error : String)
deriving DecidableEq, Repr

/-- The `seats_info` dict of `do_calc`. -/
structure SeatsInfo where
  method : String
  byGroup : VMap
  info : AllocInfo
deriving DecidableEq, Repr

/-- The method dispatch of `do_calc` lines 71-94:
`method_lc = method.strip().lower()`, then the chain of alias
comparisons; an unknown method stores an error note in the metadata
instead of failing. -/
def dispatchMethod (method : String) (votes : VMap) (seats : Int) : SeatsInfo :=
  let methodLc : String := ⟨pyLower (pyStrip method.data)⟩
  if methodLc = "d-hont" ∨ methodLc = "dhont" ∨ methodLc = "d\x27hont" then
    let r := allocDhondt votes seats
    { method := "d-hont", byGroup := r.1, info := .dhondt r.2 }
  else if methodLc = "hare" then
    let r := allocHare votes seats
    { method := "hare", byGroup := r.1, info := .hare r.2 }
  else if methodLc = "lista-incompleta" then
    let r := allocListaIncompleta votes seats
    { method := "lista-incompleta", byGroup := r.1, info := .listaIncompleta r.2 }
  else if methodLc = "mayoria-simple" ∨ methodLc = "mayoría-simple" then
    let r := allocMayoriaSimple votes seats
    { method := "mayoria-simple", byGroup := r.1, info := .mayoriaSimple r.2 }
  else if methodLc = "balotaje" ∨ methodLc = "ballotage" then
    let r := evalBalotaje votes seats
    { method := "balotaje", byGroup := r.1, info := .balotaje r.2 }
  else
    { method := method, byGroup := [], info := .unsupported "método no soportado" }

/-- The JSON body returned by `do_calc` (lines 115-127), restricted to the
engine-relevant fields. -/
structure CalcResult where
  ok : Bool
  method : Option String
  groups : Nat
  totals : VMap
  seats : Int
  assignment : Option SeatsInfo
deriving DecidableEq, Repr

/-- The pure core of calc.py `do_calc`: db-entry navigation (404 on
KeyError), the preprocessed-file checks (400), aggregation, seat
resolution, optional method dispatch and the response body.  File loading
and persistence are modelled by the arguments; an `Except.error` is an
HTTPException with its status code. -/
def doCalcCore (entry : Option EntryMeta) (preFileExists : Bool) (rows : List VoteRow)
    (seatsJsonlRel : Option String) (seatsFileExists : Bool) (seatsItems : List SeatItem)
    (office : String) (method : Option String) : Except (Nat × String) CalcResult :=
  match entry with
  | none => .error (404, "Entrada no encontrada en db.json")
  | some meta =>
    if ¬ optTruthy meta.preprocessedJson then
      .error (400, "Falta preprocesado (no existe preprocessed_json en db.json)")
    else if ¬ preFileExists then
      .error (400, "Archivo preprocesado no encontrado")
    else
      let agg := aggregateVotes rows
      let seats := resolveSeatsFromJsonlOrMeta (some meta) seatsJsonlRel seatsFileExists
        seatsItems office
      let seatsInfo : Option SeatsInfo :=
        match method with
        | none => none
        | some m => if m = "" then none else some (dispatchMethod m agg.1 seats)
      .ok { ok := true, method := method, groups := agg.1.length, totals := agg.2,
            seats := seats, assignment := seatsInfo }

/-! ### Specification-side restatements used by refinement claims. -/

/-- Stated from the spec's wording of one layer of the catalog search
(spec 4.3 step 4): filter the full catalog by mandatory office-name
equality plus the layer's category/context requirements, and sum the
per-line seat contributions. -/
def specLayerTotal (officeN categoryN : String) (ctxTipo ctxNombre : Option String)
    (requireCategory requireCtx : Bool) (items : List SeatItem) : Int :=
  ((items.filter (fun it =>
      matchOffice officeN it
      && (!requireCategory || matchCategory categoryN it)
      && (!requireCtx || matchCtx ctxTipo ctxNombre it))).map
    (fun it => it.cantidadCargos.getD 0)).sum

/-- Stated from the spec's wording: the four layer totals in the order
(category and context, category only, context only, neither), and the
first strictly positive one. -/
def specFirstPositiveLayer (officeN categoryN : String) (ctxTipo ctxNombre : Option String)
    (items : List SeatItem) : Option Int :=
  ([specLayerTotal officeN categoryN ctxTipo ctxNombre true true items,
    specLayerTotal officeN categoryN ctxTipo ctxNombre true false items,
    specLayerTotal officeN categoryN ctxTipo ctxNombre false true items,
    specLayerTotal officeN categoryN ctxTipo ctxNombre false false items]).find?
    (fun s => decide (0 < s))

/-- Stated from the claim C9 wording: the first-round win rule on exact
percentages of total positive votes. -/
def specWinFirstRound (firstVotes secondVotes total : Nat) : Prop :=
  ((firstVotes : ℚ) / (total : ℚ)) * 100 ≥ 45 ∨
    (((firstVotes : ℚ) / (total : ℚ)) * 100 ≥ 40 ∧
      ((firstVotes : ℚ) / (total : ℚ)) * 100 - ((secondVotes : ℚ) / (total : ℚ)) * 100 ≥ 10)

/-- A votes dict with group `g`'s count replaced by `w` (all other groups
fixed); the vote increase considered by the D'Hondt monotonicity
property. -/
def updateVotes (votes : VMap) (g : String) (w : Nat) : VMap :=
  votes.map (fun p => if p.1 = g then (g, w) else p)

/-! ## Supporting lemmas -/

/-! ### Rational helpers agree with the standard operations. -/

theorem num_eq_mul_den (a : ℚ) : (a.num : ℚ) = a * a.den :=
  (div_eq_iff (Nat.cast_ne_zero.mpr a.den_nz)).mp (Rat.num_div_den a)

theorem qdiv_eq (a b : ℚ) : qdiv a b = a / b := by
  rw [qdiv, Rat.divInt_eq_div]
  rcases eq_or_ne b 0 with rfl | hb
  · simp
  · have hbn : (b.num : ℚ) ≠ 0 := Int.cast_ne_zero.mpr (Rat.num_ne_zero.mpr hb)
    have had : (a.den : ℚ) ≠ 0 := Nat.cast_ne_zero.mpr a.den_nz
    push_cast
    rw [div_eq_div_iff (mul_ne_zero had hbn) hb]
    rw [num_eq_mul_den a, num_eq_mul_den b]; ring

theorem qmul_eq (a b : ℚ) : qmul a b = a * b := by
  rw [qmul, Rat.divInt_eq_div]
  have had : (a.den : ℚ) ≠ 0 := Nat.cast_ne_zero.mpr a.den_nz
  have hbd : (b.den : ℚ) ≠ 0 := Nat.cast_ne_zero.mpr b.den_nz
  push_cast
  rw [div_eq_iff (mul_ne_zero had hbd)]
  rw [num_eq_mul_den a, num_eq_mul_den b]; ring

theorem qsub_eq (a b : ℚ) : qsub a b = a - b := by
  rw [qsub, Rat.divInt_eq_div]
  have had : (a.den : ℚ) ≠ 0 := Nat.cast_ne_zero.mpr a.den_nz
  have hbd : (b.den : ℚ) ≠ 0 := Nat.cast_ne_zero.mpr b.den_nz
  push_cast
  rw [div_eq_iff (mul_ne_zero had hbd)]
  rw [num_eq_mul_den a, num_eq_mul_den b]; ring

theorem qfloor_eq (q : ℚ) : qfloor q = ⌊q⌋ := by
  rw [qfloor, Rat.floor_def]
  rfl

/-! ### Dict (association list) toolbox. -/

theorem getv_nil (g : String) : getv [] g = 0 := rfl

theorem getv_cons (p : String × Nat) (t : VMap) (g : String) :
    getv (p :: t) g = if p.1 = g then p.2 else getv t g := by
  by_cases h : p.1 = g
  · have hb : (p.1 == g) = true := beq_iff_eq.mpr h
    simp [getv, List.find?, hb, h]
  · have hb : (p.1 == g) = false := beq_eq_false_iff_ne.mpr h
    simp [getv, List.find?, hb, h]

theorem getv_of_any_false (m : VMap) (g : String)
    (h : m.any (fun p => p.1 == g) = false) : getv m g = 0 := by
  induction m with
  | nil => rfl
  | cons p t ih =>
    simp only [List.any_cons, Bool.or_eq_false_iff] at h
    rw [getv_cons, if_neg (by simpa using h.1), ih h.2]

theorem getv_append (m m' : VMap) (g : String) :
    getv (m ++ m') g = if m.any (fun p => p.1 == g) then getv m g else getv m' g := by
  induction m with
  | nil => simp
  | cons p t ih =>
    by_cases h : p.1 = g
    · have hb : (p.1 == g) = true := beq_iff_eq.mpr h
      simp [getv_cons, h, hb]
    · have hb : (p.1 == g) = false := beq_eq_false_iff_ne.mpr h
      rw [List.cons_append, getv_cons, if_neg h, ih, List.any_cons, hb, Bool.false_or,
        getv_cons, if_neg h]

theorem getv_overwrite (m : VMap) (g g' : String) (v : Nat) :
    getv (m.map (fun p => if p.1 == g then (g, v) else p)) g' =
      if g' = g ∧ m.any (fun p => p.1 == g) then v else getv m g' := by
  induction m with
  | nil => simp [getv_nil]
  | cons p t ih =>
    by_cases hp : p.1 = g
    · have hb : (p.1 == g) = true := beq_iff_eq.mpr hp
      by_cases hg' : g' = g
      · subst hg'; simp [hb, hp, getv_cons]
      · have hne : g ≠ g' := Ne.symm hg'
        have hpne : ¬ p.1 = g' := fun e => hg' (e.symm.trans hp)
        simp only [List.map_cons, hb, if_true, List.any_cons, Bool.true_or]
        rw [getv_cons, getv_cons, if_neg hne, if_neg hpne, ih]
        simp [hg']
    · have hb : (p.1 == g) = false := beq_eq_false_iff_ne.mpr hp
      simp only [List.map_cons, hb, if_false, List.any_cons, Bool.false_or]
      rw [getv_cons, getv_cons, ih]
      by_cases hpg' : p.1 = g'
      · have hne : ¬ g' = g := fun e => hp (hpg'.trans e)
        simp [hpg', hne]
      · simp [hpg']

theorem getv_setv (m : VMap) (g g' : String) (v : Nat) :
    getv (setv m g v) g' = if g' = g then v else getv m g' := by
  unfold setv
  by_cases h : m.any (fun p => p.1 == g)
  · rw [if_pos h, getv_overwrite]
    by_cases hg' : g' = g <;> simp [hg', h]
  · rw [if_neg (by simp [h]), getv_append]
    by_cases hg' : g' = g
    · subst hg'
      rw [if_neg h, getv_cons, getv_nil, if_pos rfl, if_pos rfl]
    · rw [getv_cons, getv_nil, if_neg (Ne.symm hg'), if_neg hg']
      by_cases h2 : m.any (fun p => p.1 == g')
      · rw [if_pos h2]
      · rw [if_neg h2, getv_of_any_false m g' (Bool.eq_false_iff.mpr h2)]

theorem getv_setv_self (m : VMap) (g : String) (v : Nat) : getv (setv m g v) g = v := by
  simp [getv_setv]

theorem getv_setv_ne (m : VMap) (g g' : String) (v : Nat) (h : g' ≠ g) :
    getv (setv m g v) g' = getv m g' := by
  simp [getv_setv, h]

theorem keys_addv (m : VMap) (g : String) (d : Nat) :
    (addv m g d).map Prod.fst = m.map Prod.fst := by
  unfold addv
  rw [List.map_map]
  refine List.map_congr_left (fun p _ => ?_)
  by_cases h : p.1 = g <;> simp [h]

theorem getv_addv (m : VMap) (g g' : String) (d : Nat) :
    getv (addv m g d) g' =
      if g' = g ∧ m.any (fun p => p.1 == g) then getv m g' + d else getv m g' := by
  induction m with
  | nil => simp [addv, getv_nil]
  | cons p t ih =>
    unfold addv at ih ⊢
    by_cases hp : p.1 = g
    · have hb : (p.1 == g) = true := beq_iff_eq.mpr hp
      by_cases hg' : g' = g
      · subst hg'
        simp only [List.map_cons, hb, if_true, List.any_cons, Bool.true_or]
        rw [getv_cons, getv_cons, if_pos hp, if_pos hp]
        simp
      · have hpne : ¬ p.1 = g' := fun e => hg' (e.symm.trans hp)
        simp only [List.map_cons, hb, if_true, List.any_cons, Bool.true_or]
        rw [getv_cons, getv_cons, if_neg hpne, if_neg hpne, ih]
        simp [hg']
    · have hb : (p.1 == g) = false := beq_eq_false_iff_ne.mpr hp
      simp only [List.map_cons, hb, if_false, List.any_cons, Bool.false_or]
      rw [getv_cons, getv_cons, ih]
      by_cases hpg' : p.1 = g'
      · have hne : ¬ g' = g := fun e => hp (hpg'.trans e)
        simp [hpg', hne]
      · simp [hpg']

theorem sumv_nil : sumv [] = 0 := rfl

theorem sumv_cons (p : String × Nat) (t : VMap) : sumv (p :: t) = p.2 + sumv t := by
  simp [sumv]

theorem sumv_append (m m' : VMap) : sumv (m ++ m') = sumv m + sumv m' := by
  simp [sumv]

theorem sumv_zeros (votes : VMap) : sumv (zeros votes) = 0 := by
  induction votes with
  | nil => rfl
  | cons p t ih => simp [zeros, sumv_cons] at ih ⊢; exact ih

theorem overwrite_map_id (t : VMap) (g : String) (v : Nat)
    (h : ∀ q ∈ t, ¬ q.1 = g) :
    t.map (fun p => if p.1 == g then (g, v) else p) = t := by
  have : ∀ q ∈ t, (fun p => if p.1 == g then (g, v) else p) q = id q := by
    intro q hq
    have hb : (q.1 == g) = false := beq_eq_false_iff_ne.mpr (h q hq)
    simp [hb]
  rw [List.map_congr_left this, List.map_id]

theorem sumv_setv_bump (m : VMap) (g : String)
    (hnd : (m.map Prod.fst).Nodup) :
    sumv (setv m g (getv m g + 1)) = sumv m + 1 := by
  unfold setv
  by_cases h : m.any (fun p => p.1 == g)
  · rw [if_pos h]
    induction m with
    | nil => simp at h
    | cons p t ih =>
      rw [List.map_cons, List.nodup_cons] at hnd
      by_cases hp : p.1 = g
      · have hb : (p.1 == g) = true := beq_iff_eq.mpr hp
        have hnot : ∀ q ∈ t, ¬ q.1 = g := by
          intro q hq he
          exact hnd.1 (by rw [hp, ← he]; exact List.mem_map_of_mem Prod.fst hq)
        rw [getv_cons, if_pos hp]
        simp only [List.map_cons, hb, if_true]
        rw [overwrite_map_id t g _ hnot, sumv_cons, sumv_cons]
        omega
      · have hb : (p.1 == g) = false := beq_eq_false_iff_ne.mpr hp
        have ht : t.any (fun q => q.1 == g) := by
          rcases List.any_eq_true.mp h with ⟨q, hq, hqg⟩
          rcases List.mem_cons.mp hq with rfl | hq'
          · exact absurd hqg (by simp [hb])
          · exact List.any_eq_true.mpr ⟨q, hq', hqg⟩
        rw [getv_cons, if_neg hp]
        simp only [List.map_cons, hb, Bool.false_eq_true, if_false]
        rw [sumv_cons, sumv_cons, ih hnd.2 ht]
        omega
  · rw [if_neg h, sumv_append, getv_of_any_false m g (Bool.eq_false_iff.mpr h), sumv_cons,
      sumv_nil]

theorem nodup_keys_setv (m : VMap) (g : String) (v : Nat)
    (hnd : (m.map Prod.fst).Nodup) :
    ((setv m g v).map Prod.fst).Nodup := by
  unfold setv
  by_cases h : m.any (fun p => p.1 == g)
  · rw [if_pos h]
    have : (m.map (fun p => if p.1 == g then (g, v) else p)).map Prod.fst = m.map Prod.fst := by
      rw [List.map_map]
      refine List.map_congr_left (fun p _ => ?_)
      by_cases hp : p.1 = g
      · simp [beq_iff_eq.mpr hp, hp]
      · simp [beq_eq_false_iff_ne.mpr hp, hp]
    rw [this]; exact hnd
  · rw [if_neg h, List.map_append]
    refine List.Nodup.append hnd (by simp) ?_
    intro a ha hb
    simp only [List.map_cons, List.map_nil, List.mem_singleton] at hb
    subst hb
    rcases List.mem_map.mp ha with ⟨p, hp, he⟩
    exact h (List.any_eq_true.mpr ⟨p, hp, beq_iff_eq.mpr he⟩)

theorem getv_foldl_bump {α : Type} (gid : α → String) (picks : List α) (m : VMap) (g : String) :
    getv (picks.foldl (fun m e => setv m (gid e) (getv m (gid e) + 1)) m) g =
      getv m g + picks.countP (fun e => gid e == g) := by
  induction picks generalizing m with
  | nil => simp
  | cons e t ih =>
    rw [List.foldl_cons, ih, List.countP_cons]
    by_cases h : gid e = g
    · subst h; rw [getv_setv_self]; simp; omega
    · rw [getv_setv_ne _ _ _ _ (Ne.symm h)]
      have : (gid e == g) = false := beq_eq_false_iff_ne.mpr h
      simp [this]

theorem sumv_foldl_bump {α : Type} (gid : α → String) (picks : List α) (m : VMap)
    (hnd : (m.map Prod.fst).Nodup) :
    sumv (picks.foldl (fun m e => setv m (gid e) (getv m (gid e) + 1)) m) =
      sumv m + picks.length := by
  induction picks generalizing m with
  | nil => simp
  | cons e t ih =>
    rw [List.foldl_cons, ih _ (nodup_keys_setv _ _ _ hnd), sumv_setv_bump _ _ hnd,
      List.length_cons]
    omega

/-! ### Aggregator lemmas (towards C10). -/

theorem keys_aggStep (acc : VMap × VMap) (r : VoteRow) :
    ((aggStep acc r).2).map Prod.fst = acc.2.map Prod.fst := by
  unfold aggStep
  cases hv : r.voteType with
  | none => rfl
  | some vt =>
    by_cases h0 : vt = 0
    · simp [h0]
    · cases htn : typeName vt with
      | none => simp [h0, htn]
      | some nm => simp [h0, htn, keys_addv]

theorem keys_agg_fold (rows : List VoteRow) :
    ∀ acc : VMap × VMap, ((rows.foldl aggStep acc).2).map Prod.fst = acc.2.map Prod.fst := by
  induction rows with
  | nil => intro acc; rfl
  | cons r t ih =>
    intro acc
    rw [List.foldl_cons, ih, keys_aggStep]

theorem agg_pos_fold (rows : List VoteRow) :
    ∀ (acc : VMap × VMap) (g : String),
      getv (rows.foldl aggStep acc).1 g = getv acc.1 g + posSum rows g := by
  induction rows with
  | nil => intro acc g; simp [posSum]
  | cons r t ih =>
    intro acc g
    have hps : posSum (r :: t) g =
        (if r.voteType = some 0 ∧ rowGid r = g then (r.voteNumber.getD 0).toNat else 0)
          + posSum t g := by
      simp [posSum]
    rw [List.foldl_cons, ih, hps]
    cases hv : r.voteType with
    | none => simp [aggStep, hv]
    | some vt =>
      by_cases h0 : vt = 0
      · subst h0
        by_cases hg : rowGid r = g
        · have : getv (aggStep acc r).1 g =
              getv acc.1 g + (r.voteNumber.getD 0).toNat := by
            simp only [aggStep, hv]
            rw [if_pos trivial, ← hg, getv_setv_self]
          rw [this]; simp [hv, hg]; omega
        · have : getv (aggStep acc r).1 g = getv acc.1 g := by
            simp only [aggStep, hv]
            rw [if_pos trivial, getv_setv_ne _ _ _ _ (fun e => hg e.symm)]
          rw [this]; simp [hv, hg]
      · cases htn : typeName vt with
        | none => simp [aggStep, hv, h0, htn]
        | some nm => simp [aggStep, hv, h0, htn]

theorem getv_initOthers_eq_zero (name : String) : getv initOthers name = 0 := by
  simp only [initOthers, getv_cons, getv_nil]
  split_ifs <;> rfl

theorem any_map_fst (l : List (String × Nat)) (nm : String) :
    (l.map Prod.fst).any (fun k => k == nm) = l.any (fun p => p.1 == nm) := by
  induction l with
  | nil => rfl
  | cons p t ih => simp only [List.map_cons, List.any_cons, ih]

theorem typeName_mem (vt : Int) (nm : String) (h : typeName vt = some nm) :
    nm = "impugnado" ∨ nm = "recurrido" ∨ nm = "comando" ∨ nm = "en_blanco" ∨ nm = "nulo" := by
  unfold typeName at h
  split_ifs at h <;> simp_all

theorem agg_other_fold (rows : List VoteRow) :
    ∀ (acc : VMap × VMap) (name : String),
      acc.2.map Prod.fst = initOthers.map Prod.fst →
      getv (rows.foldl aggStep acc).2 name = getv acc.2 name + otherSum rows name := by
  induction rows with
  | nil => intro acc name _; simp [otherSum]
  | cons r t ih =>
    intro acc name hkeys
    have hos : otherSum (r :: t) name =
        (match r.voteType with
         | some vt => if vt ≠ 0 ∧ typeName vt = some name then (r.voteNumber.getD 0).toNat else 0
         | none => 0) + otherSum t name := by
      simp [otherSum]
    rw [List.foldl_cons, ih _ _ (by rw [keys_aggStep]; exact hkeys), hos]
    cases hv : r.voteType with
    | none => simp [aggStep, hv]
    | some vt =>
      by_cases h0 : vt = 0
      · subst h0; simp [aggStep, hv]
      · cases htn : typeName vt with
        | none => simp [aggStep, hv, h0, htn]
        | some nm =>
          have hany : acc.2.any (fun p => p.1 == nm) = true := by
            rw [← any_map_fst, hkeys, any_map_fst]
            rcases typeName_mem vt nm htn with h | h | h | h | h <;> subst h <;> rfl
          have hstep : (aggStep acc r).2 = addv acc.2 nm (r.voteNumber.getD 0).toNat := by
            simp [aggStep, hv, h0, htn]
          rw [hstep, getv_addv]
          by_cases hnm : name = nm
          · subst hnm
            simp only [hany, and_true, if_pos rfl]
            simp [hv, h0, htn]
            omega
          · have hnm' : ¬ nm = name := fun e => hnm e.symm
            have : (some nm = some name) = False := by simp [hnm']
            simp [hnm, hv, h0, htn, this]

/-! ### Layer-sum lemmas (towards C6 and C7). -/

theorem foldl_add_shift {α : Type} (h : Int → α → Int) (c : α → Int)
    (hh : ∀ a x, h a x = a + c x) (its : List α) :
    ∀ a : Int, its.foldl h a = a + its.foldl h 0 := by
  induction its with
  | nil => intro a; simp
  | cons it t ih =>
    intro a
    rw [List.foldl_cons, List.foldl_cons, ih, ih (h 0 it), hh, hh 0]
    ring

theorem layerSum_step (officeN categoryN : String) (ctxTipo ctxNombre : Option String)
    (requireCategory requireCtx : Bool) (acc : Int) (it : SeatItem) :
    (if ¬ matchOffice officeN it then acc
     else if requireCategory ∧ ¬ matchCategory categoryN it then acc
     else if requireCtx ∧ ¬ matchCtx ctxTipo ctxNombre it then acc
     else acc + it.cantidadCargos.getD 0) =
      acc + (if matchOffice officeN it
          ∧ (requireCategory = true → matchCategory categoryN it)
          ∧ (requireCtx = true → matchCtx ctxTipo ctxNombre it)
        then it.cantidadCargos.getD 0 else 0) := by
  split_ifs with h1 h2 h3 h4 h5 h6 h7 <;> try omega
  all_goals simp_all

theorem layerSum_cons (officeN categoryN : String) (ctxTipo ctxNombre : Option String)
    (rc rx : Bool) (it : SeatItem) (its : List SeatItem) :
    layerSum officeN categoryN ctxTipo ctxNombre rc rx (it :: its) =
      (if matchOffice officeN it ∧ (rc = true → matchCategory categoryN it)
          ∧ (rx = true → matchCtx ctxTipo ctxNombre it)
        then it.cantidadCargos.getD 0 else 0)
      + layerSum officeN categoryN ctxTipo ctxNombre rc rx its := by
  unfold layerSum
  rw [List.foldl_cons,
    foldl_add_shift _ _ (layerSum_step officeN categoryN ctxTipo ctxNombre rc rx) its,
    layerSum_step]
  ring

theorem layerSum_eq_spec (officeN categoryN : String) (ctxTipo ctxNombre : Option String)
    (rc rx : Bool) (items : List SeatItem) :
    layerSum officeN categoryN ctxTipo ctxNombre rc rx items =
      specLayerTotal officeN categoryN ctxTipo ctxNombre rc rx items := by
  induction items with
  | nil => rfl
  | cons it its ih =>
    rw [layerSum_cons, ih]
    unfold specLayerTotal
    rw [List.filter_cons]
    by_cases h : (matchOffice officeN it
        && (!rc || matchCategory categoryN it)
        && (!rx || matchCtx ctxTipo ctxNombre it)) = true
    · rw [if_pos h, List.map_cons, List.sum_cons]
      have hp : matchOffice officeN it ∧ (rc = true → matchCategory categoryN it)
          ∧ (rx = true → matchCtx ctxTipo ctxNombre it) := by
        simp only [Bool.and_eq_true, Bool.or_eq_true, Bool.not_eq_true'] at h
        refine ⟨h.1.1, fun hc => ?_, fun hc => ?_⟩
        · rcases h.1.2 with h' | h'
          · rw [hc] at h'; cases h'
          · exact h'
        · rcases h.2 with h' | h'
          · rw [hc] at h'; cases h'
          · exact h'
      rw [if_pos hp]
    · rw [if_neg h]
      have hp : ¬ (matchOffice officeN it ∧ (rc = true → matchCategory categoryN it)
          ∧ (rx = true → matchCtx ctxTipo ctxNombre it)) := by
        intro ⟨ho, hc, hx⟩
        apply h
        simp only [Bool.and_eq_true, Bool.or_eq_true, Bool.not_eq_true']
        refine ⟨⟨ho, ?_⟩, ?_⟩
        · cases hrc : rc
          · exact Or.inl rfl
          · exact Or.inr (hc hrc)
        · cases hrx : rx
          · exact Or.inl rfl
          · exact Or.inr (hx hrx)
      rw [if_neg hp]
      omega

/-! ### Allocation-sum lemmas (towards C3 and C4). -/

theorem sumv_addv_present (m : VMap) (g : String) (d : Nat)
    (hnd : (m.map Prod.fst).Nodup) (hmem : m.any (fun p => p.1 == g) = true) :
    sumv (addv m g d) = sumv m + d := by
  induction m with
  | nil => simp at hmem
  | cons p t ih =>
    rw [List.map_cons, List.nodup_cons] at hnd
    by_cases hp : p.1 = g
    · have hb : (p.1 == g) = true := beq_iff_eq.mpr hp
      have hnot : ∀ q ∈ t, ¬ q.1 = g := by
        intro q hq he
        exact hnd.1 (by rw [hp, ← he]; exact List.mem_map_of_mem Prod.fst hq)
      have htid : addv t g d = t := by
        unfold addv
        have : ∀ q ∈ t, (fun p => if p.1 == g then (p.1, p.2 + d) else p) q = id q := by
          intro q hq
          have hb' : (q.1 == g) = false := beq_eq_false_iff_ne.mpr (hnot q hq)
          simp [hb']
        rw [List.map_congr_left this, List.map_id]
      unfold addv at htid ⊢
      simp only [List.map_cons, hb, if_true]
      rw [htid, sumv_cons, sumv_cons]
      omega
    · have hb : (p.1 == g) = false := beq_eq_false_iff_ne.mpr hp
      have ht : t.any (fun q => q.1 == g) = true := by
        rcases List.any_eq_true.mp hmem with ⟨q, hq, hqg⟩
        rcases List.mem_cons.mp hq with rfl | hq'
        · exact absurd hqg (by simp [hb])
        · exact List.any_eq_true.mpr ⟨q, hq', hqg⟩
      unfold addv at ih ⊢
      simp only [List.map_cons, hb, Bool.false_eq_true, if_false]
      rw [sumv_cons, sumv_cons, ih hnd.2 ht]
      omega

theorem sumv_foldl_addv {α : Type} (gid : α → String) (picks : List α) (m : VMap)
    (hnd : (m.map Prod.fst).Nodup)
    (hmem : ∀ e ∈ picks, m.any (fun p => p.1 == gid e) = true) :
    sumv (picks.foldl (fun m e => addv m (gid e) 1) m) = sumv m + picks.length := by
  induction picks generalizing m with
  | nil => simp
  | cons e t ih =>
    have hk : (addv m (gid e) 1).map Prod.fst = m.map Prod.fst := keys_addv m (gid e) 1
    rw [List.foldl_cons,
      ih (addv m (gid e) 1) (by rw [hk]; exact hnd)
        (by
          intro x hx
          have := hmem x (List.mem_cons_of_mem e hx)
          rw [← any_map_fst, hk, any_map_fst]
          exact this),
      sumv_addv_present m (gid e) 1 hnd (hmem e (List.mem_cons_self e t)), List.length_cons]
    omega

theorem sumv_map_pairs (votes : VMap) (f : String × Nat → Nat) :
    sumv (votes.map (fun p => (p.1, f p))) = (votes.map f).sum := by
  induction votes with
  | nil => rfl
  | cons p t ih => simp [sumv_cons, ih]

theorem keys_map_pairs (votes : VMap) (f : String × Nat → Nat) :
    (votes.map (fun p => (p.1, f p))).map Prod.fst = votes.map Prod.fst := by
  rw [List.map_map]; rfl

theorem length_dhondtQuotients (votes : VMap) (S : Nat) :
    (dhondtQuotients votes S).length = votes.length * S := by
  unfold dhondtQuotients
  induction votes with
  | nil => simp
  | cons p t ih =>
    rw [List.flatMap_cons, List.length_append, List.length_map, List.length_range, ih,
      List.length_cons]
    ring

theorem sum_lt_length_of_forall_lt_one (l : List ℚ) (hne : l ≠ []) (h : ∀ x ∈ l, x < 1) :
    l.sum < l.length := by
  induction l with
  | nil => exact absurd rfl hne
  | cons x t ih =>
    rw [List.sum_cons, List.length_cons]
    have hx := h x (List.mem_cons_self x t)
    have hts : t.sum ≤ (t.length : ℚ) := by
      calc t.sum ≤ t.length • (1 : ℚ) :=
            List.sum_le_card_nsmul t 1 (fun x hx => le_of_lt (h x (List.mem_cons_of_mem _ hx)))
        _ = (t.length : ℚ) := by simp
    push_cast
    linarith

/-! ## Claim theorems -/

/-- C10: aggregation adds `max(0, vote_count)` of each Positive row to its
group's total (missing/empty group id becoming the literal group "0"),
adds `max(0, vote_count)` of each recognized non-positive row to the
matching global total, ignores unrecognized or missing vote types, and
always returns all five non-positive category keys (defaulting to zero);
the spec's example rows give positive 10 for group "1", null total 3, and
zero elsewhere. -/
theorem c10_aggregator_characterization (rows : List VoteRow) (g name : String) :
    getv (aggregateVotes rows).1 g = posSum rows g ∧
    getv (aggregateVotes rows).2 name = otherSum rows name ∧
    (aggregateVotes rows).2.map Prod.fst =
      ["impugnado", "recurrido", "comando", "en_blanco", "nulo"] ∧
    aggregateVotes
      [⟨some 0, some 10, some "1", none, none⟩, ⟨some 0, some (-5), some "1", none, none⟩,
        ⟨some 6, some 3, none, none, none⟩] =
      ([("1", 10)],
        [("impugnado", 0), ("recurrido", 0), ("comando", 0), ("en_blanco", 0), ("nulo", 3)]) := by
  refine ⟨?_, ?_, ?_, by decide⟩
  · have h := agg_pos_fold rows ([], initOthers) g
    simpa [aggregateVotes, getv_nil] using h
  · have h := agg_other_fold rows ([], initOthers) name rfl
    simpa [aggregateVotes, getv_initOthers_eq_zero] using h
  · have h := keys_agg_fold rows ([], initOthers)
    simpa [aggregateVotes, initOthers] using h

/-- C2: whenever the entry's seats value is absent or not a positive
integer, the seat resolver that `do_calc` actually invokes returns 0 for
every catalog configuration, because its catalog branch calls the
undefined name `load_jsonl` (a NameError swallowed by the blanket
`except`, which returns 0). -/
theorem c2_resolver_zero_without_override (meta : EntryMeta) (rel : Option String)
    (ex : Bool) (items : List SeatItem) (office : String)
    (h : meta.seats = none ∨ ∃ s, meta.seats = some s ∧ s ≤ 0) :
    resolveSeatsFromJsonlOrMeta (some meta) rel ex items office = 0 := by
  rcases h with h | ⟨s, hs, hle⟩
  · simp [resolveSeatsFromJsonlOrMeta, loadJsonlDefinedInCalc, h]
  · simp [resolveSeatsFromJsonlOrMeta, loadJsonlDefinedInCalc, hs, not_lt.mpr hle]

/-- Witness for C2 at a concrete entry without override and a catalog
whose lines would sum to a positive count if they were read. -/
theorem c2_resolver_zero_without_override_witness :
    ((⟨none, none, none, some "pre.json"⟩ : EntryMeta).seats = none ∨
      ∃ s, (⟨none, none, none, some "pre.json"⟩ : EntryMeta).seats = some s ∧ s ≤ 0) ∧
    resolveSeatsFromJsonlOrMeta (some ⟨none, none, none, some "pre.json"⟩)
      (some "seats.jsonl") true
      [⟨some "diputados", none, none, none, some 9, some 9⟩] "diputados" = 0 :=
  ⟨Or.inl rfl,
    c2_resolver_zero_without_override _ _ _ _ _ (Or.inl rfl)⟩

/-- C5: a present, strictly positive seat override in the entry metadata
is returned immediately by the seat resolver invoked by the calculation,
whatever the catalog contains. -/
theorem c5_override_wins (meta : EntryMeta) (s : Int) (rel : Option String) (ex : Bool)
    (items : List SeatItem) (office : String)
    (hs : meta.seats = some s) (hpos : 0 < s) :
    resolveSeatsFromJsonlOrMeta (some meta) rel ex items office = s := by
  simp [resolveSeatsFromJsonlOrMeta, hs, hpos]

/-- Witness for C5: override 5 wins over a catalog that would give 9. -/
theorem c5_override_wins_witness :
    (⟨some 5, none, none, some "pre.json"⟩ : EntryMeta).seats = some 5 ∧ (0 : Int) < 5 ∧
    resolveSeatsFromJsonlOrMeta (some ⟨some 5, none, none, some "pre.json"⟩)
      (some "seats.jsonl") true
      [⟨some "diputados", none, none, none, some 9, some 9⟩] "diputados" = 5 :=
  ⟨rfl, by decide, c5_override_wins _ 5 _ _ _ _ rfl (by decide)⟩

/-- C7 counterexample: a catalog line that matches the layer but carries
no seat-count field contributes 0 to the layer total, not 1 — the layer
total over a single such matching line is 0. -/
theorem c7_counterexample :
    matchOffice "diputados" ⟨some "Diputados", none, none, none, none, none⟩ = true ∧
    layerSum "diputados" "nacional" none none true true
      [⟨some "Diputados", none, none, none, none, none⟩] = 0 ∧
    ¬ layerSum "diputados" "nacional" none none true true
      [⟨some "Diputados", none, none, none, none, none⟩] = 1 := by
  decide

/-- C7 amended: within a matching layer of the catalog search, a matching
line contributes its explicit integer seat-count, and a line whose
seat-count field is absent contributes 0 (not 1); non-matching lines
contribute nothing. -/
theorem c7_amended_layer_contribution (officeN categoryN : String)
    (ctxTipo ctxNombre : Option String) (rc rx : Bool) (items : List SeatItem)
    (it : SeatItem) :
    layerSum officeN categoryN ctxTipo ctxNombre rc rx (items ++ [it]) =
      layerSum officeN categoryN ctxTipo ctxNombre rc rx items +
        (if matchOffice officeN it ∧ (rc = true → matchCategory categoryN it)
            ∧ (rx = true → matchCtx ctxTipo ctxNombre it)
          then (match it.cantidadCargos with | some n => n | none => 0) else 0) := by
  have hc : (match it.cantidadCargos with | some n => n | none => (0 : Int)) =
      it.cantidadCargos.getD 0 := by
    cases it.cantidadCargos <;> rfl
  rw [hc]
  induction items with
  | nil =>
    rw [List.nil_append, layerSum_cons]
    simp [layerSum]
  | cons q t ih =>
    rw [List.cons_append, layerSum_cons, ih, layerSum_cons]
    ring

/-- C6: the layered catalog search examines exactly the four layers
(category and context, category only, context only, neither) in that
order, requires normalized office-name equality in every layer, and
returns the summed seat total of the first layer whose sum is strictly
positive (falling back to the meta override-or-zero when no layer is
positive), never mixing items of different layers in one sum. -/
theorem c6_layer_search_order (metaSeats : Option Int) (items : List SeatItem)
    (rows : List VoteRow) (electionCategory office : String) :
    get_seats metaSeats items rows electionCategory office =
      match specFirstPositiveLayer (norm office) (norm electionCategory)
          (modeOf (rows.map (fun r => r.tipoEscala)))
          (modeOf (rows.map (fun r => r.nombreEscala))) items with
      | some s => s
      | none => metaSeats.getD 0 := by
  unfold get_seats specFirstPositiveLayer
  simp only [layerOrder, layerSearch, layerSum_eq_spec]
  set oN := norm office
  set cN := norm electionCategory
  set ct := modeOf (rows.map (fun r => r.tipoEscala))
  set cn := modeOf (rows.map (fun r => r.nombreEscala))
  by_cases h1 : specLayerTotal oN cN ct cn true true items > 0
  · simp [List.find?, h1]
  · by_cases h2 : specLayerTotal oN cN ct cn true false items > 0
    · simp [List.find?, h1, h2]
    · by_cases h3 : specLayerTotal oN cN ct cn false true items > 0
      · simp [List.find?, h1, h2, h3]
      · by_cases h4 : specLayerTotal oN cN ct cn false false items > 0
        · simp [List.find?, h1, h2, h3, h4]
        · simp [List.find?, h1, h2, h3, h4]

/-- C1 counterexample: a calculation invoked with the unrecognized method
"foo" (on an entry whose preprocessed file exists) does not fail — it
returns an ok result whose assignment merely embeds the error note in its
allocation metadata. -/
theorem c1_counterexample :
    doCalcCore (some ⟨none, none, none, some "pre.json"⟩) true [] none false [] "diputados"
      (some "foo") =
    .ok { ok := true, method := some "foo", groups := 0,
          totals := initOthers, seats := 0,
          assignment := some { method := "foo", byGroup := [],
                               info := .unsupported "método no soportado" } } := by
  rfl

/-- C1 amended: for every method string whose stripped, lower-cased form
is none of the recognized aliases, the calculation completes successfully
(no HTTPException): it returns the ok response in which the assignment
has an empty by_group and the metadata error note "método no soportado",
instead of failing. -/
theorem c1_amended_unknown_method_embeds_error (meta : EntryMeta) (rows : List VoteRow)
    (rel : Option String) (ex : Bool) (items : List SeatItem) (office method : String)
    (hpre : optTruthy meta.preprocessedJson = true)
    (hm : method ≠ "")
    (hunk : ¬ (⟨pyLower (pyStrip method.data)⟩ : String) ∈
      (["d-hont", "dhont", "d\x27hont", "hare", "lista-incompleta",
        "mayoria-simple", "mayoría-simple", "balotaje", "ballotage"] : List String)) :
    doCalcCore (some meta) true rows rel ex items office (some method) =
      .ok { ok := true, method := some method, groups := (aggregateVotes rows).1.length,
            totals := (aggregateVotes rows).2,
            seats := resolveSeatsFromJsonlOrMeta (some meta) rel ex items office,
            assignment := some { method := method, byGroup := [],
                                 info := .unsupported "método no soportado" } } := by
  simp only [List.mem_cons, List.not_mem_nil, or_false, not_or] at hunk
  obtain ⟨h1, h2, h3, h4, h5, h6, h7, h8, h9⟩ := hunk
  have hdisp : dispatchMethod method (aggregateVotes rows).1
      (resolveSeatsFromJsonlOrMeta (some meta) rel ex items office) =
      { method := method, byGroup := [], info := .unsupported "método no soportado" } := by
    simp only [dispatchMethod]
    rw [if_neg (by simp [h1, h2, h3]), if_neg h4, if_neg h5, if_neg (by simp [h6, h7]),
      if_neg (by simp [h8, h9])]
  simp [doCalcCore, hpre, hm, hdisp]

/-- Witness for C1 amended at the concrete unknown method "foo". -/
theorem c1_amended_unknown_method_embeds_error_witness :
    optTruthy (⟨none, none, none, some "pre.json"⟩ : EntryMeta).preprocessedJson = true ∧
    "foo" ≠ "" ∧
    ¬ (⟨pyLower (pyStrip "foo".data)⟩ : String) ∈
      (["d-hont", "dhont", "d\x27hont", "hare", "lista-incompleta",
        "mayoria-simple", "mayoría-simple", "balotaje", "ballotage"] : List String) ∧
    doCalcCore (some ⟨none, none, none, some "pre.json"⟩) true [] none false [] "diputados"
      (some "foo") =
      .ok { ok := true, method := some "foo",
            groups := (aggregateVotes []).1.length,
            totals := (aggregateVotes []).2,
            seats := resolveSeatsFromJsonlOrMeta (some ⟨none, none, none, some "pre.json"⟩)
              none false [] "diputados",
            assignment := some { method := "foo", byGroup := [],
                                 info := .unsupported "método no soportado" } } :=
  ⟨by decide, by decide, by decide,
    c1_amended_unknown_method_embeds_error _ _ _ _ _ _ _ (by decide) (by decide) (by decide)⟩

theorem dhondt_sum_eq (votes : VMap) (S : Nat) (hnd : (votes.map Prod.fst).Nodup)
    (hne : votes ≠ []) (hS : 0 < S) :
    sumv (allocDhondt votes (S : Int)).1 = S := by
  have hguard : ¬ ((S : Int) ≤ 0 ∨ votes = []) := by
    push_neg
    exact ⟨by exact_mod_cast hS, hne⟩
  simp only [allocDhondt]
  rw [if_neg hguard]
  have htn : ((S : Int)).toNat = S := by simp
  rw [htn]
  have hlen : (pySortDesc (dhondtKey votes) (dhondtQuotients votes S)).length =
      votes.length * S := by
    unfold pySortDesc
    rw [(List.perm_insertionSort _ _).length_eq, length_dhondtQuotients]
  have hpicklen : (List.take S (pySortDesc (dhondtKey votes)
      (dhondtQuotients votes S))).length = S := by
    rw [List.length_take, hlen]
    have hpos : 0 < votes.length := List.length_pos.mpr hne
    exact Nat.min_eq_left (Nat.le_mul_of_pos_left S hpos)
  have hz : ((zeros votes).map Prod.fst).Nodup := by
    unfold zeros
    rw [keys_map_pairs votes (fun _ => 0)]
    exact hnd
  have hfold := sumv_foldl_bump (fun e : ℚ × String × ℕ => e.2.1)
    (List.take S (pySortDesc (dhondtKey votes) (dhondtQuotients votes S))) (zeros votes) hz
  simp only [sumv_zeros, hpicklen, Nat.zero_add] at hfold
  exact hfold

theorem sum_map_sub {α : Type} (l : List α) (f g : α → ℚ) :
    (l.map (fun a => f a - g a)).sum = (l.map f).sum - (l.map g).sum := by
  induction l with
  | nil => simp
  | cons x t ih => simp [ih]; ring

theorem cast_sum_toNat {α : Type} (l : List α) (f : α → ℤ) (h : ∀ x ∈ l, 0 ≤ f x) :
    (((l.map (fun x => (f x).toNat)).sum : ℕ) : ℤ) = (l.map f).sum := by
  induction l with
  | nil => simp
  | cons x t ih =>
    rw [List.map_cons, List.map_cons, List.sum_cons, List.sum_cons, Nat.cast_add,
      Int.toNat_of_nonneg (h x (List.mem_cons_self x t)),
      ih (fun y hy => h y (List.mem_cons_of_mem x hy))]

theorem hare_sum_eq (votes : VMap) (S : Nat) (hnd : (votes.map Prod.fst).Nodup)
    (hne : votes ≠ []) (hS : 0 < S) (htot : 0 < sumv votes) :
    sumv (allocHare votes (S : Int)).1 = S := by
  have hguard : ¬ ((S : Int) ≤ 0 ∨ ((sumv votes : ℕ) : Int) ≤ 0 ∨ votes = []) := by
    push_neg
    exact ⟨by exact_mod_cast hS, by exact_mod_cast htot, hne⟩
  simp only [allocHare]
  rw [if_neg hguard]
  set Q : ℚ := qdiv ((sumv votes : ℕ) : ℚ) (((S : ℤ) : ℚ)) with hQ
  set F : VMap := votes.map (fun p => (p.1, hareFloor p.2 Q)) with hF
  set A : ℕ := sumv F with hA
  set REM : List (ℚ × String) :=
    votes.map (fun p => (qsub ((p.2 : ℕ) : ℚ) (qmul ((hareFloor p.2 Q : ℕ) : ℚ) Q), p.1))
    with hREM
  show sumv (List.foldl (fun m e => addv m e.2 1) F
    (List.take (0 ⊔ ((S:ℤ) - (A:ℤ))).toNat (pySortDesc (hareKey votes) REM))) = S
  have hareFloor_eq : ∀ v : ℕ, hareFloor v Q = (⌊(v : ℚ) / Q⌋).toNat := by
    intro v
    unfold hareFloor
    rw [qfloor_eq, qdiv_eq]
  have hT0 : ((sumv votes : ℕ) : ℚ) ≠ 0 := Nat.cast_ne_zero.mpr (Nat.pos_iff_ne_zero.mp htot)
  have hS0 : ((S : ℕ) : ℚ) ≠ 0 := Nat.cast_ne_zero.mpr (Nat.pos_iff_ne_zero.mp hS)
  have hQr : Q = ((sumv votes : ℕ) : ℚ) / ((S : ℕ) : ℚ) := by
    rw [hQ, qdiv_eq]
    norm_num
  have hQpos : 0 < Q := by
    rw [hQr]
    exact div_pos (by exact_mod_cast htot) (by exact_mod_cast hS)
  have hfloor_nonneg : ∀ p : String × ℕ, 0 ≤ ⌊(p.2 : ℚ) / Q⌋ :=
    fun p => Int.floor_nonneg.mpr (div_nonneg (Nat.cast_nonneg _) hQpos.le)
  have hAZ : (A : ℤ) = (votes.map (fun p => ⌊(p.2 : ℚ) / Q⌋)).sum := by
    rw [hA, hF, sumv_map_pairs]
    simp only [hareFloor_eq]
    exact cast_sum_toNat votes (fun p => ⌊(p.2 : ℚ) / Q⌋) (fun x _ => hfloor_nonneg x)
  have hsum_cast : ((sumv votes : ℕ) : ℚ) = (votes.map (fun p => ((p.2 : ℕ) : ℚ))).sum := by
    unfold sumv
    rw [Nat.cast_list_sum, List.map_map]
    rfl
  have hsumx : (votes.map (fun p => (p.2 : ℚ) / Q)).sum = ((S : ℕ) : ℚ) := by
    have h1 : (votes.map (fun p => (p.2 : ℚ) / Q)).sum =
        (votes.map (fun p => ((p.2 : ℚ)) * Q⁻¹)).sum := by
      simp [div_eq_mul_inv]
    rw [h1, List.sum_map_mul_right, ← hsum_cast, hQr]
    field_simp
  have hcastA : ((A : ℤ) : ℚ) = (votes.map (fun p => ((⌊(p.2 : ℚ) / Q⌋ : ℤ) : ℚ))).sum := by
    rw [hAZ, Int.cast_list_sum, List.map_map]
    rfl
  have hA_leQ : ((A : ℤ) : ℚ) ≤ ((S : ℕ) : ℚ) := by
    rw [hcastA, ← hsumx]
    exact List.sum_le_sum (fun p _ => Int.floor_le _)
  have hA_le : A ≤ S := by exact_mod_cast hA_leQ
  have hfrac : ((S : ℚ)) - ((A : ℤ) : ℚ) < (votes.length : ℚ) := by
    rw [hcastA, ← hsumx, ← sum_map_sub]
    have hne' : votes.map (fun p => (p.2 : ℚ) / Q - ((⌊(p.2 : ℚ) / Q⌋ : ℤ) : ℚ)) ≠ [] := by
      simp [hne]
    have hlt : ∀ x ∈ votes.map (fun p => (p.2 : ℚ) / Q - ((⌊(p.2 : ℚ) / Q⌋ : ℤ) : ℚ)), x < 1 := by
      intro x hx
      rcases List.mem_map.mp hx with ⟨p, _, rfl⟩
      have := Int.fract_lt_one ((p.2 : ℚ) / Q)
      rw [Int.fract] at this
      exact this
    have := sum_lt_length_of_forall_lt_one _ hne' hlt
    simpa using this
  have hSA : (S : ℤ) - (A : ℤ) < (votes.length : ℤ) := by exact_mod_cast hfrac
  have hmax : (0 : ℤ) ⊔ ((S : ℤ) - (A : ℤ)) = (S : ℤ) - (A : ℤ) :=
    max_eq_right (by omega)
  have hRnat : (((0 : ℤ) ⊔ ((S : ℤ) - (A : ℤ))).toNat : ℤ) = (S : ℤ) - (A : ℤ) := by
    rw [hmax]
    exact Int.toNat_of_nonneg (by omega)
  have hsortlen : (pySortDesc (hareKey votes) REM).length = votes.length := by
    unfold pySortDesc
    rw [(List.perm_insertionSort _ _).length_eq, hREM, List.length_map]
  have hRle : ((0 : ℤ) ⊔ ((S : ℤ) - (A : ℤ))).toNat ≤ votes.length := by omega
  have htakelen : (List.take ((0 : ℤ) ⊔ ((S : ℤ) - (A : ℤ))).toNat
      (pySortDesc (hareKey votes) REM)).length = ((0 : ℤ) ⊔ ((S : ℤ) - (A : ℤ))).toNat := by
    rw [List.length_take, hsortlen]
    exact Nat.min_eq_left hRle
  have hFnd : (F.map Prod.fst).Nodup := by
    rw [hF, keys_map_pairs]
    exact hnd
  have hmem : ∀ e ∈ List.take ((0 : ℤ) ⊔ ((S : ℤ) - (A : ℤ))).toNat
      (pySortDesc (hareKey votes) REM), F.any (fun p => p.1 == e.2) = true := by
    intro e he
    have h1 : e ∈ pySortDesc (hareKey votes) REM := List.take_subset _ _ he
    have h2 : e ∈ REM := ((List.perm_insertionSort _ _).mem_iff).mp h1
    rw [hREM] at h2
    rcases List.mem_map.mp h2 with ⟨p, hp, he2⟩
    have hes : e.2 = p.1 := by rw [← he2]
    rw [← any_map_fst, hF, keys_map_pairs, any_map_fst]
    exact List.any_eq_true.mpr ⟨p, hp, beq_iff_eq.mpr hes.symm⟩
  have hfold := sumv_foldl_addv (fun e : ℚ × String => e.2)
    (List.take ((0 : ℤ) ⊔ ((S : ℤ) - (A : ℤ))).toNat (pySortDesc (hareKey votes) REM)) F
    hFnd hmem
  simp only [htakelen] at hfold
  rw [← hA] at hfold
  rw [hfold]
  omega

theorem charsLt_irrefl (l : List Char) : charsLt l l = false := by
  induction l with
  | nil => rfl
  | cons c t ih =>
    unfold charsLt
    simp [lt_irrefl, ih]

theorem charsLt_asymm : ∀ {a b : List Char}, charsLt a b = true → charsLt b a = false := by
  intro a
  induction a with
  | nil =>
    intro b h
    cases b with
    | nil => simp [charsLt] at h
    | cons d s => rfl
  | cons c t ih =>
    intro b h
    cases b with
    | nil => simp [charsLt] at h
    | cons d s =>
      rcases lt_trichotomy c d with h1 | h1 | h1
      · simp [charsLt, h1, lt_asymm h1]
      · subst h1
        simp only [charsLt, lt_irrefl, if_false] at h ⊢
        exact ih h
      · simp [charsLt, h1, lt_asymm h1] at h

theorem charsLt_trans : ∀ {a b c : List Char},
    charsLt a b = true → charsLt b c = true → charsLt a c = true := by
  intro a
  induction a with
  | nil =>
    intro b c hab hbc
    cases c with
    | nil =>
      cases b with
      | nil => exact hab
      | cons d s => simp [charsLt] at hbc
    | cons e u => rfl
  | cons x t ih =>
    intro b c hab hbc
    cases b with
    | nil => simp [charsLt] at hab
    | cons d s =>
      cases c with
      | nil => simp [charsLt] at hbc
      | cons e u =>
        rcases lt_trichotomy x d with h1 | h1 | h1
        · rcases lt_trichotomy d e with h2 | h2 | h2
          · simp [charsLt, lt_trans h1 h2]
          · subst h2; simp [charsLt, h1]
          · simp [charsLt, h2, lt_asymm h2] at hbc
        · subst h1
          simp only [charsLt, lt_irrefl, if_false] at hab
          rcases lt_trichotomy x e with h2 | h2 | h2
          · simp [charsLt, h2]
          · subst h2
            simp only [charsLt, lt_irrefl, if_false] at hbc ⊢
            exact ih hab hbc
          · simp [charsLt, h2, lt_asymm h2] at hbc
        · simp [charsLt, h1, lt_asymm h1] at hab

theorem charsLt_eq_of_not_lt : ∀ {a b : List Char},
    charsLt a b = false → charsLt b a = false → a = b := by
  intro a
  induction a with
  | nil =>
    intro b hab _
    cases b with
    | nil => rfl
    | cons d s => simp [charsLt] at hab
  | cons c t ih =>
    intro b hab hba
    cases b with
    | nil => simp [charsLt] at hba
    | cons d s =>
      rcases lt_trichotomy c d with h1 | h1 | h1
      · simp [charsLt, h1] at hab
      · subst h1
        simp only [charsLt, lt_irrefl, if_false] at hab hba
        rw [ih hab hba]
      · simp [charsLt, h1, lt_asymm h1] at hba

theorem strLt_irrefl (s : String) : strLt s s = false := charsLt_irrefl s.data

theorem strLt_asymm {a b : String} (h : strLt a b = true) : strLt b a = false :=
  charsLt_asymm h

theorem strLt_trans {a b c : String} (h1 : strLt a b = true) (h2 : strLt b c = true) :
    strLt a c = true :=
  charsLt_trans h1 h2

theorem strLt_eq_of_not_lt {a b : String} (h1 : strLt a b = false)
    (h2 : strLt b a = false) : a = b := by
  cases a; cases b
  exact congrArg String.mk (charsLt_eq_of_not_lt h1 h2)

theorem keyLt_irrefl (k : RankKey) : keyLt k k = false := by
  unfold keyLt
  simp [lt_irrefl, strLt_irrefl]

theorem keyLt_asymm : ∀ {a b : RankKey}, keyLt a b = true → keyLt b a = false := by
  intro a b h
  unfold keyLt at h ⊢
  rcases lt_trichotomy a.1 b.1 with h1 | h1 | h1
  · simp [h1, lt_asymm h1]
  · rcases lt_trichotomy a.2.1 b.2.1 with h2 | h2 | h2
    · simp [h1, h2, lt_irrefl, lt_asymm h2]
    · simp only [h1, h2, lt_irrefl, if_false] at h ⊢
      simp [strLt_asymm h]
    · simp [h1, h2, lt_irrefl, lt_asymm h2] at h
  · simp [h1, lt_asymm h1] at h

theorem keyLt_trans : ∀ {a b c : RankKey},
    keyLt a b = true → keyLt b c = true → keyLt a c = true := by
  intro a b c hab hbc
  unfold keyLt at hab hbc ⊢
  rcases lt_trichotomy a.1 b.1 with h1 | h1 | h1
  · rcases lt_trichotomy b.1 c.1 with h2 | h2 | h2
    · simp [lt_trans h1 h2]
    · simp [h2 ▸ h1]
    · simp [h2, lt_asymm h2] at hbc
  · rcases lt_trichotomy b.1 c.1 with h2 | h2 | h2
    · simp [h1 ▸ h2]
    · have h12 : a.1 = c.1 := h1.trans h2
      simp only [h1, h2, lt_irrefl, if_false] at hab hbc
      simp only [h12, lt_irrefl, if_false]
      rcases lt_trichotomy a.2.1 b.2.1 with h3 | h3 | h3
      · rcases lt_trichotomy b.2.1 c.2.1 with h4 | h4 | h4
        · simp [lt_trans h3 h4]
        · simp [h4 ▸ h3]
        · simp [h4, lt_asymm h4] at hbc
      · rcases lt_trichotomy b.2.1 c.2.1 with h4 | h4 | h4
        · simp [h3 ▸ h4]
        · have h34 : a.2.1 = c.2.1 := h3.trans h4
          simp only [h3, h4, lt_irrefl, if_false] at hab hbc
          simp [h34, lt_irrefl, strLt_trans hab hbc]
        · simp [h4, lt_asymm h4] at hbc
      · simp [h3, lt_asymm h3] at hab
    · simp [h2, lt_asymm h2] at hbc
  · simp [h1, lt_asymm h1] at hab

theorem keyLt_eq_of_not_lt : ∀ {a b : RankKey},
    keyLt a b = false → keyLt b a = false → a = b := by
  intro a b hab hba
  unfold keyLt at hab hba
  rcases lt_trichotomy a.1 b.1 with h1 | h1 | h1
  · simp [h1] at hab
  · rcases lt_trichotomy a.2.1 b.2.1 with h2 | h2 | h2
    · simp [h1, h2, lt_irrefl] at hab
    · simp only [h1, h2, lt_irrefl, if_false] at hab hba
      have hs : a.2.2 = b.2.2 := strLt_eq_of_not_lt hab hba
      exact Prod.ext h1 (Prod.ext h2 hs)
    · simp [h1, h2, lt_irrefl, lt_asymm h2] at hba
  · simp [h1, lt_asymm h1] at hba

theorem keyGe_total (a b : RankKey) : keyGe a b = true ∨ keyGe b a = true := by
  unfold keyGe
  by_cases h : keyLt a b = true
  · right; simp [keyLt_asymm h]
  · left; simp [Bool.eq_false_iff.mpr h]

theorem keyGe_trans : ∀ {a b c : RankKey},
    keyGe a b = true → keyGe b c = true → keyGe a c = true := by
  intro a b c hab hbc
  unfold keyGe at hab hbc ⊢
  rw [Bool.not_eq_true'] at hab hbc ⊢
  by_cases hac : keyLt a c = true
  · by_cases hba : keyLt b a = true
    · rw [keyLt_trans hba hac] at hbc
      cases hbc
    · have : a = b := keyLt_eq_of_not_lt hab (Bool.eq_false_iff.mpr hba)
      rw [← this, hac] at hbc
      cases hbc
  · exact Bool.eq_false_iff.mpr hac

theorem sorted_pySortDesc {α : Type} (key : α → RankKey) (l : List α) :
    List.Sorted (fun a b => keyGe (key a) (key b) = true) (pySortDesc key l) := by
  exact @List.sorted_insertionSort α (fun a b => keyGe (key a) (key b) = true) _
    ⟨fun a b => keyGe_total (key a) (key b)⟩ ⟨fun a b c hab hbc => keyGe_trans hab hbc⟩ l

theorem perm_pySortDesc {α : Type} (key : α → RankKey) (l : List α) :
    (pySortDesc key l).Perm l :=
  List.perm_insertionSort _ l

theorem getv_zeros (votes : VMap) (g : String) : getv (zeros votes) g = 0 := by
  induction votes with
  | nil => rfl
  | cons p t ih =>
    unfold zeros at ih ⊢
    rw [List.map_cons, getv_cons]
    by_cases h : p.1 = g <;> simp [h, ih]

theorem keys_zeros (votes : VMap) : (zeros votes).map Prod.fst = votes.map Prod.fst :=
  keys_map_pairs votes (fun _ => 0)

theorem sumv_setv_present (m : VMap) (g : String) (v : Nat)
    (hnd : (m.map Prod.fst).Nodup) (hmem : m.any (fun p => p.1 == g) = true) :
    sumv (setv m g v) + getv m g = sumv m + v := by
  unfold setv
  rw [if_pos hmem]
  induction m with
  | nil => simp at hmem
  | cons p t ih =>
    rw [List.map_cons, List.nodup_cons] at hnd
    by_cases hp : p.1 = g
    · have hb : (p.1 == g) = true := beq_iff_eq.mpr hp
      have hnot : ∀ q ∈ t, ¬ q.1 = g := by
        intro q hq he
        exact hnd.1 (by rw [hp, ← he]; exact List.mem_map_of_mem Prod.fst hq)
      rw [getv_cons, if_pos hp]
      simp only [List.map_cons, hb, if_true]
      rw [overwrite_map_id t g _ hnot, sumv_cons, sumv_cons]
      omega
    · have hb : (p.1 == g) = false := beq_eq_false_iff_ne.mpr hp
      have ht : t.any (fun q => q.1 == g) = true := by
        rcases List.any_eq_true.mp hmem with ⟨q, hq, hqg⟩
        rcases List.mem_cons.mp hq with rfl | hq'
        · exact absurd hqg (by simp [hb])
        · exact List.any_eq_true.mpr ⟨q, hq', hqg⟩
      rw [getv_cons, if_neg hp]
      simp only [List.map_cons, hb, Bool.false_eq_true, if_false]
      rw [sumv_cons, sumv_cons]
      have := ih hnd.2 ht
      omega

theorem any_of_mem_keys (m : VMap) (g : String) (h : g ∈ m.map Prod.fst) :
    m.any (fun p => p.1 == g) = true := by
  rcases List.mem_map.mp h with ⟨p, hp, he⟩
  exact List.any_eq_true.mpr ⟨p, hp, beq_iff_eq.mpr he⟩

theorem foldl_max_mem (rest : List (String × Nat)) :
    ∀ p : String × Nat,
      (rest.foldl (fun best q => if keyLt (rankPairKey best) (rankPairKey q) then q else best) p)
        ∈ p :: rest := by
  induction rest with
  | nil => intro p; exact List.mem_singleton.mpr rfl
  | cons q t ih =>
    intro p
    rw [List.foldl_cons]
    by_cases h : keyLt (rankPairKey p) (rankPairKey q) = true
    · rw [if_pos h]
      exact List.mem_cons_of_mem p (ih q)
    · rw [if_neg h]
      rcases List.mem_cons.mp (ih p) with h' | h'
      · rw [h']
        exact List.mem_cons_self p (q :: t)
      · exact List.mem_cons_of_mem p (List.mem_cons_of_mem q h')

theorem mayoria_sum_eq (votes : VMap) (S : Nat) (hnd : (votes.map Prod.fst).Nodup)
    (hne : votes ≠ []) (hS : 0 < S) :
    sumv (allocMayoriaSimple votes (S : Int)).1 = S := by
  have hguard : ¬ ((S : Int) ≤ 0 ∨ votes = []) := by
    push_neg
    exact ⟨by exact_mod_cast hS, hne⟩
  cases votes with
  | nil => exact absurd rfl hne
  | cons p rest =>
    simp only [allocMayoriaSimple]
    rw [if_neg hguard]
    have hwmem := foldl_max_mem rest p
    have hany : (zeros (p :: rest)).any (fun q =>
        q.1 == (rest.foldl (fun best q =>
          if keyLt (rankPairKey best) (rankPairKey q) then q else best) p).1) = true := by
      apply any_of_mem_keys
      rw [keys_zeros]
      exact List.mem_map_of_mem Prod.fst hwmem
    have h1 := sumv_setv_present (zeros (p :: rest))
      (rest.foldl (fun best q =>
        if keyLt (rankPairKey best) (rankPairKey q) then q else best) p).1
      ((S : Int)).toNat (by rw [keys_zeros]; exact hnd) hany
    rw [getv_zeros, sumv_zeros] at h1
    have htn : ((S : Int)).toNat = S := by simp
    rw [htn] at h1
    simpa using h1

theorem pyRound_le_floor_add_one (q : ℚ) : pyRound q ≤ ⌊q⌋ + 1 := by
  unfold pyRound
  rw [qfloor_eq]
  dsimp only
  split_ifs <;> omega

theorem keys_setv_of_present (m : VMap) (g : String) (v : Nat)
    (h : m.any (fun p => p.1 == g) = true) :
    (setv m g v).map Prod.fst = m.map Prod.fst := by
  unfold setv
  rw [if_pos h, List.map_map]
  refine List.map_congr_left (fun p _ => ?_)
  by_cases hp : p.1 = g
  · simp [beq_iff_eq.mpr hp, hp]
  · simp [beq_eq_false_iff_ne.mpr hp, hp]

theorem lista_sum_eq (votes : VMap) (S : Nat) (hnd : (votes.map Prod.fst).Nodup)
    (hlen2 : 2 ≤ votes.length) (hkeys : ∀ p ∈ votes, p.1 ≠ "") (hS : 0 < S) :
    sumv (allocListaIncompleta votes (S : Int)).1 = S := by
  have hne : votes ≠ [] := by
    intro h
    rw [h] at hlen2
    simp at hlen2
  have hguard : ¬ ((S : Int) ≤ 0 ∨ votes = []) := by
    push_neg
    exact ⟨by exact_mod_cast hS, hne⟩
  have hperm := perm_pySortDesc rankPairKey votes
  have hlen : (orderedVotes votes).length = votes.length := hperm.length_eq
  obtain ⟨a, b, rest2, hord⟩ : ∃ a b rest2, orderedVotes votes = a :: b :: rest2 := by
    match h : orderedVotes votes with
    | [] => rw [h] at hlen; rw [← hlen] at hlen2; simp at hlen2
    | [a] => rw [h] at hlen; rw [← hlen] at hlen2; simp at hlen2
    | a :: b :: r => exact ⟨a, b, r, rfl⟩
  simp only [allocListaIncompleta]
  rw [if_neg hguard, hord]
  dsimp only [List.head?_cons]
  have hperm' : (orderedVotes votes).Perm votes := hperm
  have hamem : a ∈ votes := hperm'.mem_iff.mp (by rw [hord]; exact List.mem_cons_self a _)
  have hbmem : b ∈ votes := hperm'.mem_iff.mp
    (by rw [hord]; exact List.mem_cons_of_mem a (List.mem_cons_self b rest2))
  have hndord : ((orderedVotes votes).map Prod.fst).Nodup :=
    ((hperm'.map Prod.fst).nodup_iff).mpr hnd
  have hab : a.1 ≠ b.1 := by
    rw [hord] at hndord
    simp only [List.map_cons, List.nodup_cons] at hndord
    exact fun e => hndord.1 (by rw [e]; exact List.mem_cons_self b.1 _)
  have hbne : b.1 ≠ "" := hkeys b hbmem
  have htruthyb : optTruthy (Option.map (fun p => p.1) (some b)) = true := by
    simp [optTruthy, hbne]
  have hnd0 : ((zeros votes).map Prod.fst).Nodup := by rw [keys_zeros]; exact hnd
  have hanya : (zeros votes).any (fun p => p.1 == a.1) = true :=
    any_of_mem_keys _ _ (by rw [keys_zeros]; exact List.mem_map_of_mem Prod.fst hamem)
  have hkeys1 : ∀ v : Nat, (setv (zeros votes) a.1 v).map Prod.fst =
      (zeros votes).map Prod.fst := fun v => keys_setv_of_present _ _ _ hanya
  have hnd1 : ∀ v : Nat, ((setv (zeros votes) a.1 v).map Prod.fst).Nodup := by
    intro v; rw [hkeys1 v]; exact hnd0
  have hanyb : ∀ v : Nat, (setv (zeros votes) a.1 v).any (fun p => p.1 == b.1) = true := by
    intro v
    apply any_of_mem_keys
    rw [hkeys1 v, keys_zeros]
    exact List.mem_map_of_mem Prod.fst hbmem
  by_cases h3 : (S : Int) = 3
  · rw [if_pos h3, if_pos htruthyb]
    show sumv (setv (setv (zeros votes) a.1 2) b.1 1) = S
    have h1 := sumv_setv_present (zeros votes) a.1 2 hnd0 hanya
    rw [getv_zeros, sumv_zeros] at h1
    have h2 := sumv_setv_present (setv (zeros votes) a.1 2) b.1 1 (hnd1 2) (hanyb 2)
    rw [getv_setv_ne _ _ _ _ (fun e => hab e.symm), getv_zeros] at h2
    have h3' : S = 3 := by exact_mod_cast h3
    omega
  · rw [if_neg h3]
    by_cases h2c : (S : Int) = 2
    · rw [if_pos h2c]
      show sumv (setv (zeros votes) a.1 2) = S
      have h1 := sumv_setv_present (zeros votes) a.1 2 hnd0 hanya
      rw [getv_zeros, sumv_zeros] at h1
      have h2' : S = 2 := by exact_mod_cast h2c
      omega
    · rw [if_neg h2c]
      by_cases h1c : (S : Int) = 1
      · rw [if_pos h1c]
        show sumv (setv (zeros votes) a.1 1) = S
        have h1 := sumv_setv_present (zeros votes) a.1 1 hnd0 hanya
        rw [getv_zeros, sumv_zeros] at h1
        have h1' : S = 1 := by exact_mod_cast h1c
        omega
      · rw [if_neg h1c]
        have hS4 : 4 ≤ S := by
          have e3 : S ≠ 3 := fun e => h3 (by exact_mod_cast e)
          have e2 : S ≠ 2 := fun e => h2c (by exact_mod_cast e)
          have e1 : S ≠ 1 := fun e => h1c (by exact_mod_cast e)
          omega
        have hq : qmul ((((S : ℕ) : ℤ)) : ℚ) (qdiv 2 3) = (S : ℚ) * (2 / 3 : ℚ) := by
          rw [qmul_eq, qdiv_eq]
          push_cast
          ring
        have hrle : pyRound (qmul ((((S : ℕ) : ℤ)) : ℚ) (qdiv 2 3)) ≤ (S : Int) - 1 := by
          rw [hq]
          have hb1 := pyRound_le_floor_add_one ((S : ℚ) * (2 / 3))
          have hb2 : ⌊(S : ℚ) * (2 / 3)⌋ < (S : Int) - 1 := by
            rw [Int.floor_lt]
            have : (4 : ℚ) ≤ (S : ℚ) := by exact_mod_cast hS4
            push_cast
            linarith
          omega
        have hFS1 : (1 : ℤ) ≤ 1 ⊔ ((S : ℤ) ⊓ pyRound (qmul ((((S : ℕ) : ℤ)) : ℚ) (qdiv 2 3))) :=
          le_max_left _ _
        have hFSle : 1 ⊔ ((S : ℤ) ⊓ pyRound (qmul ((((S : ℕ) : ℤ)) : ℚ) (qdiv 2 3))) ≤
            (S : ℤ) - 1 := by
          apply max_le
          · omega
          · exact le_trans (min_le_right _ _) hrle
        have hSSpos : (S : ℤ) - (1 ⊔ ((S : ℤ) ⊓ pyRound (qmul ((((S : ℕ) : ℤ)) : ℚ)
            (qdiv 2 3)))) > 0 := by omega
        rw [if_pos ⟨htruthyb, hSSpos⟩]
        show sumv (setv (setv (zeros votes) a.1
          (1 ⊔ ((S : ℤ) ⊓ pyRound (qmul ((((S : ℕ) : ℤ)) : ℚ) (qdiv 2 3)))).toNat) b.1
          ((S : ℤ) - (1 ⊔ ((S : ℤ) ⊓ pyRound (qmul ((((S : ℕ) : ℤ)) : ℚ) (qdiv 2 3))))).toNat) = S
        have h1 := sumv_setv_present (zeros votes) a.1
          (1 ⊔ ((S : ℤ) ⊓ pyRound (qmul ((((S : ℕ) : ℤ)) : ℚ) (qdiv 2 3)))).toNat hnd0 hanya
        rw [getv_zeros, sumv_zeros] at h1
        have h2 := sumv_setv_present (setv (zeros votes) a.1
          (1 ⊔ ((S : ℤ) ⊓ pyRound (qmul ((((S : ℕ) : ℤ)) : ℚ) (qdiv 2 3)))).toNat) b.1
          ((S : ℤ) - (1 ⊔ ((S : ℤ) ⊓ pyRound (qmul ((((S : ℕ) : ℤ)) : ℚ) (qdiv 2 3))))).toNat
          (hnd1 _) (hanyb _)
        rw [getv_setv_ne _ _ _ _ (fun e => hab e.symm), getv_zeros] at h2
        omega

/-- C9: for every votes mapping with positive total, the Balotaje
evaluation awards `seats` (or 1 when `seats ≤ 0`) entirely to the
top-ranked group (vote count descending, ties by group id descending)
exactly when `first_pct ≥ 45` or (`first_pct ≥ 40` and the lead over the
runner-up is `≥ 10` points), the percentages being of the total positive
votes; otherwise it awards zero to every group and sets
`requires_runoff = true` in the metadata. -/
theorem c9_balotaje_first_round_rule (votes : VMap) (seats : Int)
    (htot : 0 < sumv votes) :
    ∃ first rest, orderedVotes votes = first :: rest ∧
      first ∈ votes ∧
      (∀ p ∈ votes, p ≠ first → keyLt (rankPairKey p) (rankPairKey first) = true) ∧
      (specWinFirstRound first.2 ((rest.head?.map (fun p => p.2)).getD 0) (sumv votes) →
        getv (evalBalotaje votes seats).1 first.1 = (if seats > 0 then seats else 1).toNat ∧
        (∀ g, g ≠ first.1 → getv (evalBalotaje votes seats).1 g = 0) ∧
        (evalBalotaje votes seats).2.winFirstRound = some true ∧
        (evalBalotaje votes seats).2.requiresRunoff = some false) ∧
      (¬ specWinFirstRound first.2 ((rest.head?.map (fun p => p.2)).getD 0) (sumv votes) →
        (∀ g, getv (evalBalotaje votes seats).1 g = 0) ∧
        (evalBalotaje votes seats).2.winFirstRound = some false ∧
        (evalBalotaje votes seats).2.requiresRunoff = some true) := by
  have hne : votes ≠ [] := by
    intro h
    rw [h] at htot
    simp [sumv] at htot
  have hperm' : (orderedVotes votes).Perm votes := perm_pySortDesc rankPairKey votes
  have hlen : (orderedVotes votes).length = votes.length := hperm'.length_eq
  obtain ⟨first, rest, hord⟩ : ∃ first rest, orderedVotes votes = first :: rest := by
    match h : orderedVotes votes with
    | [] =>
      rw [h] at hlen
      exact absurd (List.length_eq_zero.mp hlen.symm) hne
    | a :: r => exact ⟨a, r, rfl⟩
  have hfmem : first ∈ votes := hperm'.mem_iff.mp (by rw [hord]; exact List.mem_cons_self first _)
  have hmax : ∀ p ∈ votes, p ≠ first → keyLt (rankPairKey p) (rankPairKey first) = true := by
    intro p hp hpne
    have hpord : p ∈ orderedVotes votes := hperm'.mem_iff.mpr hp
    rw [hord] at hpord
    rcases List.mem_cons.mp hpord with rfl | hprest
    · exact absurd rfl hpne
    · have hsorted := sorted_pySortDesc rankPairKey votes
      have hsorted' : List.Sorted
          (fun a b => keyGe (rankPairKey a) (rankPairKey b) = true) (first :: rest) := by
        rw [← hord]
        exact hsorted
      have hge : keyGe (rankPairKey first) (rankPairKey p) = true :=
        (List.sorted_cons.mp hsorted').1 p hprest
      unfold keyGe at hge
      rw [Bool.not_eq_true'] at hge
      by_cases hlt : keyLt (rankPairKey p) (rankPairKey first) = true
      · exact hlt
      · have heq := keyLt_eq_of_not_lt (Bool.eq_false_iff.mpr hlt) hge
        have : p = first := by
          have h1 : ((p.2 : ℚ), p.2, p.1) = ((first.2 : ℚ), first.2, first.1) := heq
          have h2 : p.2 = first.2 := (Prod.ext_iff.mp (Prod.ext_iff.mp h1).2).1
          have h3 : p.1 = first.1 := (Prod.ext_iff.mp (Prod.ext_iff.mp h1).2).2
          exact Prod.ext h3 h2
        exact absurd this hpne
  have hguard : ¬ (((sumv votes : ℕ) : Int) ≤ 0 ∨ votes = []) := by
    push_neg
    exact ⟨by exact_mod_cast htot, hne⟩
  refine ⟨first, rest, hord, hfmem, hmax, ?_, ?_⟩
  · intro hwin
    unfold specWinFirstRound at hwin
    have hkey : (evalBalotaje votes seats).1 =
        setv (zeros votes) first.1 ((if seats > 0 then seats else 1)).toNat ∧
        (evalBalotaje votes seats).2.winFirstRound = some true ∧
        (evalBalotaje votes seats).2.requiresRunoff = some false := by
      simp only [evalBalotaje, qmul_eq, qdiv_eq, qsub_eq]
      rw [if_neg hguard, hord]
      rcases hwin with h | ⟨h1, h2⟩
      · simp [h]
      · by_cases h45 : ((first.2 : ℚ) / ((sumv votes : ℕ) : ℚ)) * 100 ≥ 45
        · simp [h45]
        · simp [h45, h1, h2]
    refine ⟨?_, ?_, hkey.2.1, hkey.2.2⟩
    · rw [hkey.1, getv_setv_self]
    · intro g hg
      rw [hkey.1, getv_setv_ne _ _ _ _ hg, getv_zeros]
  · intro hlose
    unfold specWinFirstRound at hlose
    push_neg at hlose
    obtain ⟨h45, h40⟩ := hlose
    have hkey : (evalBalotaje votes seats).1 = zeros votes ∧
        (evalBalotaje votes seats).2.winFirstRound = some false ∧
        (evalBalotaje votes seats).2.requiresRunoff = some true := by
      simp only [evalBalotaje, qmul_eq, qdiv_eq, qsub_eq]
      rw [if_neg hguard, hord]
      by_cases hp40 : ((first.2 : ℚ) / ((sumv votes : ℕ) : ℚ)) * 100 ≥ 40
      · have h10 := h40 hp40
        simp [not_le.mpr h45, hp40, not_le.mpr h10]
      · simp [not_le.mpr h45, hp40]
    refine ⟨?_, hkey.2.1, hkey.2.2⟩
    intro g
    rw [hkey.1, getv_zeros]

/-- Witness for C9 at the spec's example votes (A wins in the first
round with 46%). -/
theorem c9_balotaje_first_round_rule_witness :
    0 < sumv [("A", 46), ("B", 40), ("C", 14)] ∧
    (∃ first rest, orderedVotes [("A", 46), ("B", 40), ("C", 14)] = first :: rest ∧
      first ∈ ([("A", 46), ("B", 40), ("C", 14)] : VMap) ∧
      (∀ p ∈ ([("A", 46), ("B", 40), ("C", 14)] : VMap), p ≠ first →
        keyLt (rankPairKey p) (rankPairKey first) = true) ∧
      (specWinFirstRound first.2 ((rest.head?.map (fun p => p.2)).getD 0)
          (sumv [("A", 46), ("B", 40), ("C", 14)]) →
        getv (evalBalotaje [("A", 46), ("B", 40), ("C", 14)] 1).1 first.1 =
          (if (1 : Int) > 0 then (1 : Int) else 1).toNat ∧
        (∀ g, g ≠ first.1 → getv (evalBalotaje [("A", 46), ("B", 40), ("C", 14)] 1).1 g = 0) ∧
        (evalBalotaje [("A", 46), ("B", 40), ("C", 14)] 1).2.winFirstRound = some true ∧
        (evalBalotaje [("A", 46), ("B", 40), ("C", 14)] 1).2.requiresRunoff = some false) ∧
      (¬ specWinFirstRound first.2 ((rest.head?.map (fun p => p.2)).getD 0)
          (sumv [("A", 46), ("B", 40), ("C", 14)]) →
        (∀ g, getv (evalBalotaje [("A", 46), ("B", 40), ("C", 14)] 1).1 g = 0) ∧
        (evalBalotaje [("A", 46), ("B", 40), ("C", 14)] 1).2.winFirstRound = some false ∧
        (evalBalotaje [("A", 46), ("B", 40), ("C", 14)] 1).2.requiresRunoff = some true)) :=
  ⟨by decide, c9_balotaje_first_round_rule [("A", 46), ("B", 40), ("C", 14)] 1 (by decide)⟩

/-- C3 counterexample: a non-empty votes mapping whose counts are all
zero (one group with zero votes) makes the Hare allocation return the
all-zero mapping, so with one seat its values sum to 0, not 1. -/
theorem c3_counterexample :
    ([("A", 0)] : VMap) ≠ [] ∧ sumv (allocHare [("A", 0)] 1).1 = 0 ∧
      ¬ sumv (allocHare [("A", 0)] 1).1 = 1 := by
  decide

/-- C3 amended: for every non-empty votes mapping (with the dict's
distinct group ids) and seats > 0, the D'Hondt allocation's values sum to
exactly `seats`; the Hare allocation's values sum to exactly `seats`
whenever the total of the votes is additionally positive. -/
theorem c3_amended_sum_to_seats (votes : VMap) (S : Nat)
    (hnd : (votes.map Prod.fst).Nodup) (hne : votes ≠ []) (hS : 0 < S) :
    sumv (allocDhondt votes (S : Int)).1 = S ∧
      (0 < sumv votes → sumv (allocHare votes (S : Int)).1 = S) :=
  ⟨dhondt_sum_eq votes S hnd hne hS, fun htot => hare_sum_eq votes S hnd hne hS htot⟩

/-- Witness for C3 amended at votes A:3, B:1 with 2 seats. -/
theorem c3_amended_sum_to_seats_witness :
    ((([("A", 3), ("B", 1)] : VMap)).map Prod.fst).Nodup ∧
      ([("A", 3), ("B", 1)] : VMap) ≠ [] ∧ 0 < 2 ∧
      (sumv (allocDhondt [("A", 3), ("B", 1)] ((2 : ℕ) : Int)).1 = 2 ∧
        (0 < sumv [("A", 3), ("B", 1)] →
          sumv (allocHare [("A", 3), ("B", 1)] ((2 : ℕ) : Int)).1 = 2)) :=
  ⟨by decide, by decide, by decide,
    c3_amended_sum_to_seats [("A", 3), ("B", 1)] 2 (by decide) (by decide) (by decide)⟩

/-- C4 counterexample: with a single competing group holding positive
votes and seats = 3, Lista Incompleta awards 2-for-first but drops the
runner-up's seat, so the values sum to 2, not 3. -/
theorem c4_counterexample :
    (∃ p ∈ ([("A", 10)] : VMap), 0 < p.2) ∧
      sumv (allocListaIncompleta [("A", 10)] 3).1 = 2 ∧
      ¬ sumv (allocListaIncompleta [("A", 10)] 3).1 = 3 := by
  refine ⟨⟨("A", 10), by decide, by decide⟩, by decide, by decide⟩

/-- C4 amended: for every votes mapping in which some group has positive
votes (group ids distinct and non-empty, as the aggregator produces) and
every seats > 0, Mayoría Simple's values sum to exactly `seats`, and
Lista Incompleta's values sum to exactly `seats` whenever at least two
groups compete (with a single group its runner-up share is dropped). -/
theorem c4_amended_sum_to_seats (votes : VMap) (S : Nat)
    (hnd : (votes.map Prod.fst).Nodup) (hpos : ∃ p ∈ votes, 0 < p.2) (hS : 0 < S)
    (hkeys : ∀ p ∈ votes, p.1 ≠ "") :
    sumv (allocMayoriaSimple votes (S : Int)).1 = S ∧
      (2 ≤ votes.length → sumv (allocListaIncompleta votes (S : Int)).1 = S) := by
  have hne : votes ≠ [] := by
    rcases hpos with ⟨p, hp, _⟩
    exact List.ne_nil_of_mem hp
  exact ⟨mayoria_sum_eq votes S hnd hne hS,
    fun hlen2 => lista_sum_eq votes S hnd hlen2 hkeys hS⟩

/-- Witness for C4 amended at votes A:5, B:3 with 4 seats. -/
theorem c4_amended_sum_to_seats_witness :
    ((([("A", 5), ("B", 3)] : VMap)).map Prod.fst).Nodup ∧
      (∃ p ∈ ([("A", 5), ("B", 3)] : VMap), 0 < p.2) ∧ 0 < 4 ∧
      (∀ p ∈ ([("A", 5), ("B", 3)] : VMap), p.1 ≠ "") ∧
      (sumv (allocMayoriaSimple [("A", 5), ("B", 3)] ((4 : ℕ) : Int)).1 = 4 ∧
        (2 ≤ ([("A", 5), ("B", 3)] : VMap).length →
          sumv (allocListaIncompleta [("A", 5), ("B", 3)] ((4 : ℕ) : Int)).1 = 4)) :=
  ⟨by decide, ⟨("A", 5), by decide, by decide⟩, by decide, by decide,
    c4_amended_sum_to_seats [("A", 5), ("B", 3)] 4 (by decide)
      ⟨("A", 5), by decide, by decide⟩ (by decide) (by decide)⟩

theorem keyLt_le_lt {K K2 x : RankKey} (hle : keyLt K2 K = false)
    (hlt : keyLt K2 x = true) : keyLt K x = true := by
  by_cases hKx : keyLt K x = true
  · exact hKx
  · by_cases hxK : keyLt x K = true
    · rw [keyLt_trans hlt hxK] at hle
      cases hle
    · have hx : x = K :=
        keyLt_eq_of_not_lt (Bool.eq_false_iff.mpr hxK) (Bool.eq_false_iff.mpr hKx)
      rw [hx] at hlt
      rw [hlt] at hle
      cases hle

theorem count_block_take {α : Type} (key : α → RankKey) (K : RankKey) :
    ∀ (M : List α) (S : ℕ),
      List.Sorted (fun a b => keyGe (key a) (key b) = true) M →
      (M.take S).countP (fun e => decide (key e = K)) =
        min (M.countP (fun e => decide (key e = K)))
            (S - M.countP (fun e => keyLt K (key e))) := by
  intro M
  induction M with
  | nil => intro S _; simp
  | cons x M ih =>
    intro S hs
    rcases List.sorted_cons.mp hs with ⟨hx, hs'⟩
    cases S with
    | zero => simp
    | succ S =>
      rw [List.take_succ_cons, List.countP_cons, List.countP_cons, List.countP_cons,
        ih S hs']
      by_cases h1 : keyLt K (key x) = true
      · have hne : decide (key x = K) = false := by
          simp only [decide_eq_false_iff_not]
          intro he
          rw [he, keyLt_irrefl] at h1
          cases h1
        simp only [hne, h1, Bool.false_eq_true, if_false, if_true]
        omega
      · by_cases h2 : key x = K
        · have hgt0 : M.countP (fun e => keyLt K (key e)) = 0 := by
            rw [List.countP_eq_zero]
            intro y hy
            have hge := hx y hy
            unfold keyGe at hge
            rw [Bool.not_eq_true'] at hge
            intro hKy
            rw [← h2] at hKy
            rw [hKy] at hge
            cases hge
          have he : decide (key x = K) = true := decide_eq_true h2
          simp [he, Bool.eq_false_iff.mpr h1, hgt0]
          omega
        · have hxK : keyLt (key x) K = true := by
            by_cases hc : keyLt (key x) K = true
            · exact hc
            · have := keyLt_eq_of_not_lt (Bool.eq_false_iff.mpr hc) (Bool.eq_false_iff.mpr h1)
              exact absurd this h2
          have heq0 : M.countP (fun e => decide (key e = K)) = 0 := by
            rw [List.countP_eq_zero]
            intro y hy
            have hge := hx y hy
            unfold keyGe at hge
            rw [Bool.not_eq_true'] at hge
            simp only [decide_eq_true_eq]
            intro he
            rw [he] at hge
            rw [hxK] at hge
            cases hge
          have htk0 : (M.take S).countP (fun e => decide (key e = K)) = 0 := by
            rw [List.countP_eq_zero]
            intro y hy
            exact List.countP_eq_zero.mp heq0 y (List.take_subset S M hy)
          have hne : decide (key x = K) = false := by
            simp only [decide_eq_false_iff_not]
            exact h2
          simp [hne, heq0, htk0]

theorem countP_congr_mem {α : Type} (p q : α → Bool) :
    ∀ (l : List α), (∀ a ∈ l, p a = q a) → l.countP p = l.countP q := by
  intro l
  induction l with
  | nil => intro _; rfl
  | cons x t ih =>
    intro h
    rw [List.countP_cons, List.countP_cons, h x (List.mem_cons_self x t),
      ih (fun a ha => h a (List.mem_cons_of_mem x ha))]

theorem countP_mono_of_imp {α : Type} (p q : α → Bool) :
    ∀ (l : List α), (∀ a ∈ l, p a = true → q a = true) → l.countP p ≤ l.countP q := by
  intro l
  induction l with
  | nil => intro _; exact Nat.le_refl 0
  | cons x t ih =>
    intro h
    rw [List.countP_cons, List.countP_cons]
    have ht := ih (fun a ha => h a (List.mem_cons_of_mem x ha))
    by_cases hx : p x = true
    · rw [hx, h x (List.mem_cons_self x t) hx]
      omega
    · rw [Bool.eq_false_iff.mpr hx]
      simp only [Bool.false_eq_true, if_false]
      omega

theorem sum_map_add_nat {α : Type} (f g : α → ℕ) :
    ∀ (l : List α), (l.map (fun x => f x + g x)).sum = (l.map f).sum + (l.map g).sum := by
  intro l
  induction l with
  | nil => rfl
  | cons x t ih =>
    simp only [List.map_cons, List.sum_cons, ih]
    omega

theorem sum_ite_one {α : Type} (p : α → Bool) :
    ∀ (l : List α), (l.map (fun x => if p x then 1 else 0)).sum = l.countP p := by
  intro l
  induction l with
  | nil => rfl
  | cons x t ih =>
    simp only [List.map_cons, List.sum_cons, List.countP_cons, ih]
    by_cases hx : p x = true
    · simp [hx]
      omega
    · rw [Bool.eq_false_iff.mpr hx]
      simp

theorem sum_map_ite {α : Type} (p : α → Bool) (c : ℕ) :
    ∀ (l : List α), (l.map (fun x => if p x then c else 0)).sum = c * l.countP p := by
  intro l
  induction l with
  | nil => simp
  | cons x t ih =>
    simp only [List.map_cons, List.sum_cons, List.countP_cons, ih]
    by_cases hx : p x = true
    · simp [hx, Nat.mul_add]
      omega
    · rw [Bool.eq_false_iff.mpr hx]
      simp

theorem countP_flatMap {α β : Type} (f : α → List β) (p : β → Bool) :
    ∀ (l : List α), (l.flatMap f).countP p = (l.map (fun x => (f x).countP p)).sum := by
  intro l
  induction l with
  | nil => rfl
  | cons x t ih =>
    rw [List.flatMap_cons, List.countP_append, List.map_cons, List.sum_cons, ih]

theorem countP_partition {α : Type} (S : ℕ) (gidp : α → Bool) (keysf : ℕ → α → Bool) :
    ∀ (xs : List α),
      (∀ e ∈ xs, (if gidp e then 1 else 0) = (List.range S).countP (fun i => keysf i e)) →
      xs.countP gidp = ((List.range S).map (fun i => xs.countP (keysf i))).sum := by
  intro xs
  induction xs with
  | nil => intro _; simp
  | cons e t ih =>
    intro h
    have he := h e (List.mem_cons_self e t)
    have ht := ih (fun a ha => h a (List.mem_cons_of_mem e ha))
    simp only [List.countP_cons]
    rw [sum_map_add_nat (fun i => t.countP (keysf i)) (fun i => if keysf i e then 1 else 0),
      ← ht, sum_ite_one (fun i => keysf i e), ← he]

theorem countP_range_eq_one (j : ℕ) :
    ∀ (S : ℕ), j < S → (List.range S).countP (fun i => decide (i = j)) = 1 := by
  intro S
  induction S with
  | zero => intro h; cases h
  | succ S ih =>
    intro h
    rw [List.range_succ, List.countP_append]
    by_cases hj : j < S
    · rw [ih hj]
      have : (S = j) = False := by simp; omega
      simp [this]
    · have hSj : j = S := by omega
      have h0 : (List.range S).countP (fun i => decide (i = j)) = 0 := by
        rw [List.countP_eq_zero]
        intro a ha
        have := List.mem_range.mp ha
        simp
        omega
      rw [h0]
      simp [hSj]

theorem countP_range_lt (k : ℕ) :
    ∀ (S : ℕ), (List.range S).countP (fun i => decide (i < k)) = min k S := by
  intro S
  induction S with
  | zero => simp
  | succ S ih =>
    rw [List.range_succ, List.countP_append, ih]
    by_cases hk : S < k
    · simp [hk]
      omega
    · have : (S < k) = False := by simp; omega
      simp [this]
      omega

theorem getv_of_mem_nodup (g : String) (v : Nat) :
    ∀ (m : VMap), (m.map Prod.fst).Nodup → (g, v) ∈ m → getv m g = v := by
  intro m
  induction m with
  | nil => intro _ hmem; cases hmem
  | cons p t ih =>
    intro hnd hmem
    rw [List.map_cons, List.nodup_cons] at hnd
    rcases List.mem_cons.mp hmem with hh | ht
    · rw [← hh, getv_cons]
      simp
    · have hpg : p.1 ≠ g := by
        intro he
        exact hnd.1 (he ▸ (List.mem_map.mpr ⟨(g, v), ht, rfl⟩))
      rw [getv_cons, if_neg hpg]
      exact ih hnd.2 ht

theorem countP_keys_eq_one (g : String) (v : Nat) :
    ∀ (m : VMap), (m.map Prod.fst).Nodup → (g, v) ∈ m →
      m.countP (fun p => p.1 == g) = 1 := by
  intro m
  induction m with
  | nil => intro _ hmem; cases hmem
  | cons p t ih =>
    intro hnd hmem
    rw [List.map_cons, List.nodup_cons] at hnd
    rw [List.countP_cons]
    rcases List.mem_cons.mp hmem with hh | ht
    · have h0 : t.countP (fun p => p.1 == g) = 0 := by
        rw [List.countP_eq_zero]
        intro q hq
        simp only [beq_iff_eq]
        intro he
        exact hnd.1 (hh ▸ he ▸ (List.mem_map.mpr ⟨q, hq, rfl⟩))
      rw [h0, ← hh]
      simp
    · have hpg : p.1 ≠ g := by
        intro he
        exact hnd.1 (he ▸ (List.mem_map.mpr ⟨(g, v), ht, rfl⟩))
      rw [ih hnd.2 ht, beq_eq_false_iff_ne.mpr hpg]
      simp

theorem keys_updateVotes (g : String) (w : Nat) :
    ∀ (votes : VMap), (updateVotes votes g w).map Prod.fst = votes.map Prod.fst := by
  intro votes
  induction votes with
  | nil => rfl
  | cons p t ih =>
    unfold updateVotes at ih ⊢
    rw [List.map_cons, List.map_cons, List.map_cons, ih]
    by_cases hp : p.1 = g
    · rw [if_pos hp, hp]
    · rw [if_neg hp]

theorem mem_updateVotes_self (votes : VMap) (g : String) (v w : Nat)
    (hmem : (g, v) ∈ votes) : (g, w) ∈ updateVotes votes g w := by
  unfold updateVotes
  have := List.mem_map_of_mem (fun p : String × Nat => if p.1 = g then (g, w) else p) hmem
  simpa using this

theorem getv_updateVotes_ne (g h : String) (w : Nat) (hne : h ≠ g) :
    ∀ (votes : VMap), getv (updateVotes votes g w) h = getv votes h := by
  intro votes
  induction votes with
  | nil => rfl
  | cons p t ih =>
    unfold updateVotes at ih ⊢
    rw [List.map_cons]
    by_cases hp : p.1 = g
    · rw [if_pos hp, getv_cons, getv_cons,
        if_neg (show ¬((g, w).1 = h) from fun he => hne he.symm),
        if_neg (show ¬(p.1 = h) from fun he => hne (hp ▸ he).symm)]
      exact ih
    · rw [if_neg hp, getv_cons, getv_cons]
      by_cases hph : p.1 = h
      · rw [if_pos hph, if_pos hph]
      · rw [if_neg hph, if_neg hph]
        exact ih

theorem updateVotes_not_mem (g : String) (w : Nat) :
    ∀ (t : VMap), g ∉ t.map Prod.fst → updateVotes t g w = t := by
  intro t
  induction t with
  | nil => intro _; rfl
  | cons p t ih =>
    intro h
    rw [List.map_cons] at h
    unfold updateVotes at ih ⊢
    have hpg : ¬(p.1 = g) := fun he => h (List.mem_cons.mpr (Or.inl he.symm))
    rw [List.map_cons, if_neg hpg, ih (fun hm => h (List.mem_cons_of_mem p.1 hm))]

theorem updateVotes_self_eq (g : String) (v : Nat) :
    ∀ (votes : VMap), (votes.map Prod.fst).Nodup → (g, v) ∈ votes →
      updateVotes votes g v = votes := by
  intro votes
  induction votes with
  | nil => intro _ hmem; cases hmem
  | cons p t ih =>
    intro hnd hmem
    rw [List.map_cons, List.nodup_cons] at hnd
    unfold updateVotes at ih ⊢
    rw [List.map_cons]
    rcases List.mem_cons.mp hmem with hh | ht
    · rw [if_pos (by rw [← hh]), ← hh]
      have hnt : g ∉ t.map Prod.fst := by rw [← hh] at hnd; exact hnd.1
      have := updateVotes_not_mem g v t hnt
      unfold updateVotes at this
      rw [this]
    · have hpg : p.1 ≠ g := by
        intro he
        exact hnd.1 (he ▸ (List.mem_map.mpr ⟨(g, v), ht, rfl⟩))
      rw [if_neg hpg, ih hnd.2 ht]

theorem qdiv_zero_left (b : ℚ) : qdiv 0 b = 0 := by
  rw [qdiv_eq, zero_div]

theorem qdiv_nat_nonneg (v d : ℕ) : 0 ≤ qdiv (v : ℚ) (d : ℚ) := by
  rw [qdiv_eq]
  exact div_nonneg (Nat.cast_nonneg v) (Nat.cast_nonneg d)

theorem qdiv_nat_lt_iff (v d e : ℕ) (hv : 0 < v) (hd : 0 < d) (he : 0 < e) :
    (qdiv (v : ℚ) (d : ℚ) < qdiv (v : ℚ) (e : ℚ)) ↔ e < d := by
  rw [qdiv_eq, qdiv_eq, div_lt_div_iff₀ (by exact_mod_cast hd) (by exact_mod_cast he)]
  constructor
  · intro h
    by_contra hc
    push_neg at hc
    have : (v : ℚ) * (d : ℚ) ≤ (v : ℚ) * (e : ℚ) := by
      apply mul_le_mul_of_nonneg_left _ (Nat.cast_nonneg v)
      exact_mod_cast hc
    linarith
  · intro h
    apply mul_lt_mul_of_pos_left _ (by exact_mod_cast hv)
    exact_mod_cast h

theorem qdiv_nat_mono (v w d : ℕ) (h : v ≤ w) :
    qdiv (v : ℚ) (d : ℚ) ≤ qdiv (w : ℚ) (d : ℚ) := by
  rw [qdiv_eq, qdiv_eq]
  rcases Nat.eq_zero_or_pos d with hd | hd
  · subst hd
    norm_num
  · have hd2 : (0 : ℚ) < (d : ℚ) := by exact_mod_cast hd
    have hvw : (v : ℚ) ≤ (w : ℚ) := by exact_mod_cast h
    exact div_le_div_of_nonneg_right hvw hd2.le

theorem keyLt_same_tail (a b : ℚ) (n : ℕ) (s : String) :
    keyLt (a, n, s) (b, n, s) = decide (a < b) := by
  unfold keyLt
  by_cases h : a < b
  · simp [h]
  · rcases lt_or_eq_of_le (le_of_not_lt h) with h2 | h2
    · simp [h, h2]
    · simp [h2, lt_irrefl, strLt_irrefl]

theorem keyLt_eq_false_of_ge_q {a b : ℚ} {m n : ℕ} {s : String}
    (hq : b ≤ a) (hn : n ≤ m) : keyLt (a, m, s) (b, n, s) = false := by
  unfold keyLt
  have h1 : ¬(a < b) := not_lt.mpr hq
  rcases lt_or_eq_of_le hq with h2 | h2
  · simp [h1, h2]
  · have h3 : ¬((m : ℕ) < n) := not_lt.mpr hn
    rcases lt_or_eq_of_le hn with h4 | h4
    · simp [h1, h2, lt_irrefl, h3, h4]
    · simp [h1, h2, h4, lt_irrefl, strLt_irrefl]

theorem qdiv_nat_inj (v : ℕ) (hv : 0 < v) {d e : ℕ} (hd : 0 < d) (he : 0 < e)
    (h : qdiv (v : ℚ) (d : ℚ) = qdiv (v : ℚ) (e : ℚ)) : d = e := by
  rcases lt_trichotomy d e with hc | hc | hc
  · have := (qdiv_nat_lt_iff v e d hv he hd).mpr hc
    rw [h] at this
    exact absurd this (lt_irrefl _)
  · exact hc
  · have := (qdiv_nat_lt_iff v d e hv hd he).mpr hc
    rw [h] at this
    exact absurd this (lt_irrefl _)

theorem getv_allocDhondt (votes : VMap) (S : ℕ) (g : String)
    (hne : votes ≠ []) (hS : 0 < S) :
    getv (allocDhondt votes (S : Int)).1 g =
      ((pySortDesc (dhondtKey votes) (dhondtQuotients votes S)).take S).countP
        (fun e => e.2.1 == g) := by
  have hguard : ¬ ((S : Int) ≤ 0 ∨ votes = []) := by
    push_neg
    exact ⟨by exact_mod_cast hS, hne⟩
  simp only [allocDhondt]
  rw [if_neg hguard]
  have htn : ((S : Int)).toNat = S := by simp
  rw [htn]
  have hfold := getv_foldl_bump (fun e : ℚ × String × ℕ => e.2.1)
    (List.take S (pySortDesc (dhondtKey votes) (dhondtQuotients votes S))) (zeros votes) g
  simp only [getv_zeros, Nat.zero_add] at hfold
  exact hfold

theorem mem_dhondtQuotients {votes : VMap} {S : ℕ} {e : ℚ × String × ℕ}
    (h : e ∈ dhondtQuotients votes S) :
    ∃ p ∈ votes, ∃ i < S, e = (qdiv (p.2 : ℚ) (((i + 1 : ℕ)) : ℚ), p.1, i + 1) := by
  unfold dhondtQuotients at h
  rcases List.mem_flatMap.mp h with ⟨p, hp, hin⟩
  rcases List.mem_map.mp hin with ⟨i, hi, hei⟩
  exact ⟨p, hp, i, List.mem_range.mp hi, hei.symm⟩

theorem snd_of_mem_nodup (votes : VMap) (g : String) (v : Nat) (p : String × Nat)
    (hnd : (votes.map Prod.fst).Nodup) (hmem : (g, v) ∈ votes)
    (hp : p ∈ votes) (hpg : p.1 = g) : p.2 = v := by
  have h1 : getv votes g = v := getv_of_mem_nodup g v votes hnd hmem
  have h2 : getv votes g = p.2 := getv_of_mem_nodup g p.2 votes hnd (by
    have : p = (g, p.2) := Prod.ext hpg rfl
    exact this ▸ hp)
  omega

theorem sum_map_congr {α : Type} (f h : α → ℕ) :
    ∀ (l : List α), (∀ x ∈ l, f x = h x) → (l.map f).sum = (l.map h).sum := by
  intro l
  induction l with
  | nil => intro _; rfl
  | cons x t ih =>
    intro hc
    rw [List.map_cons, List.map_cons, List.sum_cons, List.sum_cons,
      hc x (List.mem_cons_self x t), ih (fun a ha => hc a (List.mem_cons_of_mem x ha))]

theorem dhondt_countEq_pos (votes : VMap) (S : ℕ) (g : String) (v : ℕ)
    (hnd : (votes.map Prod.fst).Nodup) (hmem : (g, v) ∈ votes) (hv : 0 < v)
    (d : ℕ) (hd1 : 1 ≤ d) (hdS : d ≤ S) :
    (dhondtQuotients votes S).countP
      (fun e => decide (dhondtKey votes e = (qdiv (v : ℚ) (d : ℚ), v, g))) = 1 := by
  unfold dhondtQuotients
  rw [countP_flatMap]
  have hgv : getv votes g = v := getv_of_mem_nodup g v votes hnd hmem
  have hinner : ∀ p ∈ votes,
      ((List.range S).map
          (fun i => (qdiv (p.2 : ℚ) (((i + 1 : ℕ)) : ℚ), p.1, i + 1))).countP
        (fun e => decide (dhondtKey votes e = (qdiv (v : ℚ) (d : ℚ), v, g)))
      = (if p.1 == g then 1 else 0) := by
    intro p hp
    rw [List.countP_map]
    by_cases hpg : p.1 = g
    · have hp2 : p.2 = v := snd_of_mem_nodup votes g v p hnd hmem hp hpg
      have hcongr : ∀ i ∈ List.range S,
          ((fun e => decide (dhondtKey votes e = (qdiv (v : ℚ) (d : ℚ), v, g))) ∘
            (fun i => (qdiv (p.2 : ℚ) (((i + 1 : ℕ)) : ℚ), p.1, i + 1))) i
          = decide (i = d - 1) := by
        intro i _
        simp only [Function.comp_apply, dhondtKey, hpg, hp2, hgv]
        rw [decide_eq_decide]
        constructor
        · intro he
          have h1 : qdiv (v : ℚ) (((i + 1 : ℕ)) : ℚ) = qdiv (v : ℚ) (d : ℚ) :=
            congrArg Prod.fst he
          have h2 : i + 1 = d :=
            qdiv_nat_inj v hv (Nat.succ_pos i) (by omega) h1
          omega
        · intro hi
          have h2 : i + 1 = d := by omega
          rw [h2]
      rw [countP_congr_mem _ _ _ hcongr, countP_range_eq_one (d - 1) S (by omega),
        beq_iff_eq.mpr hpg]
      simp
    · rw [beq_eq_false_iff_ne.mpr hpg]
      simp only [Bool.false_eq_true, if_false]
      rw [List.countP_eq_zero]
      intro i _
      simp only [Function.comp_apply, dhondtKey, decide_eq_true_eq]
      intro he
      exact hpg (congrArg (fun x : RankKey => x.2.2) he)
  rw [sum_map_congr _ _ votes hinner, sum_map_ite (fun p => p.1 == g) 1 votes,
    countP_keys_eq_one g v votes hnd hmem]

theorem dhondt_countEq_zero (votes : VMap) (S : ℕ) (g : String)
    (hnd : (votes.map Prod.fst).Nodup) (hmem : (g, 0) ∈ votes) :
    (dhondtQuotients votes S).countP
      (fun e => decide (dhondtKey votes e = ((0 : ℚ), 0, g))) = S := by
  unfold dhondtQuotients
  rw [countP_flatMap]
  have hgv : getv votes g = 0 := getv_of_mem_nodup g 0 votes hnd hmem
  have hinner : ∀ p ∈ votes,
      ((List.range S).map
          (fun i => (qdiv (p.2 : ℚ) (((i + 1 : ℕ)) : ℚ), p.1, i + 1))).countP
        (fun e => decide (dhondtKey votes e = ((0 : ℚ), 0, g)))
      = (if p.1 == g then S else 0) := by
    intro p hp
    rw [List.countP_map]
    by_cases hpg : p.1 = g
    · have hp2 : p.2 = 0 := snd_of_mem_nodup votes g 0 p hnd hmem hp hpg
      have hcongr : ∀ i ∈ List.range S,
          ((fun e => decide (dhondtKey votes e = ((0 : ℚ), 0, g))) ∘
            (fun i => (qdiv (p.2 : ℚ) (((i + 1 : ℕ)) : ℚ), p.1, i + 1))) i
          = true := by
        intro i _
        simp only [Function.comp_apply, dhondtKey, hpg, hp2, hgv]
        rw [decide_eq_true_eq]
        rw [Nat.cast_zero, qdiv_zero_left]
      rw [countP_congr_mem _ _ _ hcongr, beq_iff_eq.mpr hpg]
      simp
    · rw [beq_eq_false_iff_ne.mpr hpg]
      simp only [Bool.false_eq_true, if_false]
      rw [List.countP_eq_zero]
      intro i _
      simp only [Function.comp_apply, dhondtKey, decide_eq_true_eq]
      intro he
      exact hpg (congrArg (fun x : RankKey => x.2.2) he)
  rw [sum_map_congr _ _ votes hinner, sum_map_ite (fun p => p.1 == g) S votes,
    countP_keys_eq_one g 0 votes hnd hmem, Nat.mul_one]

theorem dhondt_gid_partition_pos (votes : VMap) (S : ℕ) (g : String) (v : ℕ)
    (hnd : (votes.map Prod.fst).Nodup) (hmem : (g, v) ∈ votes) (hv : 0 < v) :
    ∀ e ∈ dhondtQuotients votes S,
      (if e.2.1 == g then 1 else 0)
        = (List.range S).countP (fun i =>
            decide (dhondtKey votes e
              = (qdiv (v : ℚ) (((i + 1 : ℕ)) : ℚ), v, g))) := by
  intro e he
  rcases mem_dhondtQuotients he with ⟨p, hp, j, hj, hej⟩
  have hgv : getv votes g = v := getv_of_mem_nodup g v votes hnd hmem
  by_cases hpg : p.1 = g
  · have hp2 : p.2 = v := snd_of_mem_nodup votes g v p hnd hmem hp hpg
    have hcongr : ∀ i ∈ List.range S,
        (decide (dhondtKey votes e
          = (qdiv (v : ℚ) (((i + 1 : ℕ)) : ℚ), v, g)))
        = decide (i = j) := by
      intro i _
      rw [hej]
      simp only [dhondtKey, hpg, hp2, hgv]
      rw [decide_eq_decide]
      constructor
      · intro hk
        have h1 : qdiv (v : ℚ) (((j + 1 : ℕ)) : ℚ) = qdiv (v : ℚ) (((i + 1 : ℕ)) : ℚ) :=
          congrArg Prod.fst hk
        have := qdiv_nat_inj v hv (Nat.succ_pos j) (Nat.succ_pos i) h1
        omega
      · intro hi
        rw [hi]
    rw [countP_congr_mem _ _ _ hcongr, countP_range_eq_one j S hj, hej]
    simp [hpg]
  · have h0 : (List.range S).countP (fun i =>
        decide (dhondtKey votes e
          = (qdiv (v : ℚ) (((i + 1 : ℕ)) : ℚ), v, g))) = 0 := by
      rw [List.countP_eq_zero]
      intro i _
      rw [hej]
      simp only [dhondtKey, decide_eq_true_eq]
      intro hk
      exact hpg (congrArg (fun x : RankKey => x.2.2) hk)
    rw [h0, hej]
    simp only []
    rw [beq_eq_false_iff_ne.mpr hpg]
    simp

theorem dhondt_gid_eq_keyzero (votes : VMap) (S : ℕ) (g : String)
    (hnd : (votes.map Prod.fst).Nodup) (hmem : (g, 0) ∈ votes) :
    ∀ e ∈ dhondtQuotients votes S,
      (e.2.1 == g) = decide (dhondtKey votes e = ((0 : ℚ), 0, g)) := by
  intro e he
  rcases mem_dhondtQuotients he with ⟨p, hp, j, hj, hej⟩
  have hgv : getv votes g = 0 := getv_of_mem_nodup g 0 votes hnd hmem
  by_cases hpg : p.1 = g
  · have hp2 : p.2 = 0 := snd_of_mem_nodup votes g 0 p hnd hmem hp hpg
    rw [hej]
    simp only [dhondtKey, hpg, hp2, hgv]
    rw [beq_iff_eq.mpr rfl]
    rw [Nat.cast_zero, qdiv_zero_left]
    simp
  · rw [hej]
    simp only [dhondtKey]
    rw [beq_eq_false_iff_ne.mpr hpg]
    have : ¬((qdiv (p.2 : ℚ) (((j + 1 : ℕ)) : ℚ), getv votes p.1, p.1)
        = ((0 : ℚ), 0, g)) := by
      intro hk
      exact hpg (congrArg (fun x : RankKey => x.2.2) hk)
    symm
    rw [decide_eq_false_iff_not]
    exact this

theorem dhondt_char_pos (votes : VMap) (S : ℕ) (g : String) (v : ℕ)
    (hnd : (votes.map Prod.fst).Nodup) (hmem : (g, v) ∈ votes) (hv : 0 < v)
    (hS : 0 < S) :
    getv (allocDhondt votes (S : Int)).1 g
      = (List.range S).countP (fun i =>
          decide ((dhondtQuotients votes S).countP
            (fun e => keyLt (qdiv (v : ℚ) (((i + 1 : ℕ)) : ℚ), v, g)
              (dhondtKey votes e)) < S)) := by
  have hne : votes ≠ [] := by
    intro h
    rw [h] at hmem
    cases hmem
  rw [getv_allocDhondt votes S g hne hS]
  have hperm : (pySortDesc (dhondtKey votes) (dhondtQuotients votes S)).Perm
      (dhondtQuotients votes S) := perm_pySortDesc _ _
  have hsorted := sorted_pySortDesc (dhondtKey votes) (dhondtQuotients votes S)
  have hsub : ∀ e ∈ (pySortDesc (dhondtKey votes) (dhondtQuotients votes S)).take S,
      e ∈ dhondtQuotients votes S := by
    intro e he
    exact hperm.mem_iff.mp (List.take_subset S _ he)
  rw [countP_partition S (fun e => e.2.1 == g)
    (fun i e => decide (dhondtKey votes e = (qdiv (v : ℚ) (((i + 1 : ℕ)) : ℚ), v, g)))
    _ (fun e he => dhondt_gid_partition_pos votes S g v hnd hmem hv e (hsub e he))]
  have hterm : ∀ i ∈ List.range S,
      ((pySortDesc (dhondtKey votes) (dhondtQuotients votes S)).take S).countP
        (fun e => decide (dhondtKey votes e = (qdiv (v : ℚ) (((i + 1 : ℕ)) : ℚ), v, g)))
      = (if decide ((dhondtQuotients votes S).countP
            (fun e => keyLt (qdiv (v : ℚ) (((i + 1 : ℕ)) : ℚ), v, g)
              (dhondtKey votes e)) < S) then 1 else 0) := by
    intro i hi
    have hiS := List.mem_range.mp hi
    rw [count_block_take (dhondtKey votes) (qdiv (v : ℚ) (((i + 1 : ℕ)) : ℚ), v, g)
      (pySortDesc (dhondtKey votes) (dhondtQuotients votes S)) S hsorted,
      hperm.countP_eq, hperm.countP_eq,
      dhondt_countEq_pos votes S g v hnd hmem hv (i + 1) (by omega) (by omega)]
    by_cases hB : (dhondtQuotients votes S).countP
        (fun e => keyLt (qdiv (v : ℚ) (((i + 1 : ℕ)) : ℚ), v, g)
          (dhondtKey votes e)) < S
    · rw [if_pos (by exact decide_eq_true hB)]
      omega
    · rw [if_neg (by rw [decide_eq_false hB]; exact Bool.false_ne_true)]
      omega
  rw [sum_map_congr _ _ (List.range S) hterm,
    sum_ite_one (fun i => decide ((dhondtQuotients votes S).countP
      (fun e => keyLt (qdiv (v : ℚ) (((i + 1 : ℕ)) : ℚ), v, g)
        (dhondtKey votes e)) < S)) (List.range S)]

theorem dhondt_char_zero (votes : VMap) (S : ℕ) (g : String)
    (hnd : (votes.map Prod.fst).Nodup) (hmem : (g, 0) ∈ votes) (hS : 0 < S) :
    getv (allocDhondt votes (S : Int)).1 g
      = S - (dhondtQuotients votes S).countP
          (fun e => keyLt ((0 : ℚ), 0, g) (dhondtKey votes e)) := by
  have hne : votes ≠ [] := by
    intro h
    rw [h] at hmem
    cases hmem
  rw [getv_allocDhondt votes S g hne hS]
  have hperm : (pySortDesc (dhondtKey votes) (dhondtQuotients votes S)).Perm
      (dhondtQuotients votes S) := perm_pySortDesc _ _
  have hsorted := sorted_pySortDesc (dhondtKey votes) (dhondtQuotients votes S)
  have hsub : ∀ e ∈ (pySortDesc (dhondtKey votes) (dhondtQuotients votes S)).take S,
      e ∈ dhondtQuotients votes S := by
    intro e he
    exact hperm.mem_iff.mp (List.take_subset S _ he)
  rw [countP_congr_mem (fun e => e.2.1 == g)
    (fun e => decide (dhondtKey votes e = ((0 : ℚ), 0, g))) _
    (fun e he => dhondt_gid_eq_keyzero votes S g hnd hmem e (hsub e he)),
    count_block_take (dhondtKey votes) ((0 : ℚ), 0, g)
      (pySortDesc (dhondtKey votes) (dhondtQuotients votes S)) S hsorted,
    hperm.countP_eq, hperm.countP_eq,
    dhondt_countEq_zero votes S g hnd hmem]
  omega

theorem flatMap_map_general {α β γ : Type} (u : α → β) (f : β → List γ) :
    ∀ (l : List α), (l.map u).flatMap f = l.flatMap (fun x => f (u x)) := by
  intro l
  induction l with
  | nil => rfl
  | cons x t ih =>
    rw [List.map_cons, List.flatMap_cons, List.flatMap_cons, ih]

theorem dhondtQuotients_updateVotes (votes : VMap) (S : ℕ) (g : String) (w : ℕ) :
    dhondtQuotients (updateVotes votes g w) S
      = votes.flatMap (fun p => (List.range S).map
          (fun i => (qdiv (((if p.1 = g then ((g : String), w) else p).2 : ℕ) : ℚ)
            (((i + 1 : ℕ)) : ℚ), (if p.1 = g then ((g : String), w) else p).1, i + 1))) := by
  unfold dhondtQuotients updateVotes
  rw [flatMap_map_general]

theorem dhondt_B_mono (votes : VMap) (S : ℕ) (g : String) (v w : ℕ)
    (hnd : (votes.map Prod.fst).Nodup) (hmem : (g, v) ∈ votes)
    (hv : 0 < v) (hvw : v ≤ w) (d : ℕ) (hd1 : 1 ≤ d) :
    (dhondtQuotients (updateVotes votes g w) S).countP
      (fun e => keyLt (qdiv (w : ℚ) (d : ℚ), w, g)
        (dhondtKey (updateVotes votes g w) e))
    ≤ (dhondtQuotients votes S).countP
        (fun e => keyLt (qdiv (v : ℚ) (d : ℚ), v, g) (dhondtKey votes e)) := by
  have hw : 0 < w := lt_of_lt_of_le hv hvw
  have hnd2 : ((updateVotes votes g w).map Prod.fst).Nodup := by
    rw [keys_updateVotes]
    exact hnd
  have hmem2 : (g, w) ∈ updateVotes votes g w := mem_updateVotes_self votes g v w hmem
  have hgw : getv (updateVotes votes g w) g = w :=
    getv_of_mem_nodup g w (updateVotes votes g w) hnd2 hmem2
  have hgv : getv votes g = v := getv_of_mem_nodup g v votes hnd hmem
  have hle : keyLt (qdiv (w : ℚ) (d : ℚ), w, g) (qdiv (v : ℚ) (d : ℚ), v, g) = false :=
    keyLt_eq_false_of_ge_q (qdiv_nat_mono v w d hvw) hvw
  rw [dhondtQuotients_updateVotes votes S g w]
  unfold dhondtQuotients
  rw [countP_flatMap, countP_flatMap]
  apply List.sum_le_sum
  intro p hp
  rw [List.countP_map, List.countP_map]
  by_cases hpg : p.1 = g
  · rw [if_pos hpg]
    have hp2 : p.2 = v := snd_of_mem_nodup votes g v p hnd hmem hp hpg
    have hc1 : ∀ i ∈ List.range S,
        ((fun e => keyLt (qdiv (w : ℚ) (d : ℚ), w, g)
            (dhondtKey (updateVotes votes g w) e)) ∘
          (fun i => (qdiv ((((g : String), w).2 : ℕ) : ℚ) (((i + 1 : ℕ)) : ℚ),
            ((g : String), w).1, i + 1))) i
        = decide (i + 1 < d) := by
      intro i _
      simp only [Function.comp_apply, dhondtKey, hgw]
      rw [keyLt_same_tail, decide_eq_decide]
      exact qdiv_nat_lt_iff w d (i + 1) hw (by omega) (Nat.succ_pos i)
    have hc2 : ∀ i ∈ List.range S,
        ((fun e => keyLt (qdiv (v : ℚ) (d : ℚ), v, g) (dhondtKey votes e)) ∘
          (fun i => (qdiv ((p.2 : ℕ) : ℚ) (((i + 1 : ℕ)) : ℚ), p.1, i + 1))) i
        = decide (i + 1 < d) := by
      intro i _
      simp only [Function.comp_apply, dhondtKey, hpg, hp2, hgv]
      rw [keyLt_same_tail, decide_eq_decide]
      exact qdiv_nat_lt_iff v d (i + 1) hv (by omega) (Nat.succ_pos i)
    rw [countP_congr_mem _ _ _ hc1, countP_congr_mem _ _ _ hc2]
  · rw [if_neg hpg]
    apply countP_mono_of_imp
    intro i _
    simp only [Function.comp_apply, dhondtKey]
    rw [getv_updateVotes_ne g p.1 w hpg]
    intro hkey
    exact keyLt_le_lt hle hkey

theorem dhondt_B_bound_zero (votes : VMap) (S : ℕ) (g : String) (w : ℕ)
    (hnd : (votes.map Prod.fst).Nodup) (hmem : (g, 0) ∈ votes)
    (hw : 0 < w) (d : ℕ) (hd1 : 1 ≤ d) :
    (dhondtQuotients (updateVotes votes g w) S).countP
      (fun e => keyLt (qdiv (w : ℚ) (d : ℚ), w, g)
        (dhondtKey (updateVotes votes g w) e))
    ≤ (dhondtQuotients votes S).countP
        (fun e => keyLt ((0 : ℚ), 0, g) (dhondtKey votes e)) + (d - 1) := by
  have hnd2 : ((updateVotes votes g w).map Prod.fst).Nodup := by
    rw [keys_updateVotes]
    exact hnd
  have hmem2 : (g, w) ∈ updateVotes votes g w := mem_updateVotes_self votes g 0 w hmem
  have hgw : getv (updateVotes votes g w) g = w :=
    getv_of_mem_nodup g w (updateVotes votes g w) hnd2 hmem2
  have hle : keyLt (qdiv (w : ℚ) (d : ℚ), w, g) ((0 : ℚ), 0, g) = false :=
    keyLt_eq_false_of_ge_q (qdiv_nat_nonneg w d) (Nat.zero_le w)
  rw [dhondtQuotients_updateVotes votes S g w, countP_flatMap]
  have hpt : ∀ p ∈ votes,
      (((List.range S).map
          (fun i => (qdiv (((if p.1 = g then ((g : String), w) else p).2 : ℕ) : ℚ)
            (((i + 1 : ℕ)) : ℚ), (if p.1 = g then ((g : String), w) else p).1,
              i + 1))).countP
        (fun e => keyLt (qdiv (w : ℚ) (d : ℚ), w, g)
          (dhondtKey (updateVotes votes g w) e)))
      ≤ (((List.range S).map
          (fun i => (qdiv ((p.2 : ℕ) : ℚ) (((i + 1 : ℕ)) : ℚ), p.1, i + 1))).countP
          (fun e => keyLt ((0 : ℚ), 0, g) (dhondtKey votes e)))
        + (if p.1 == g then d - 1 else 0) := by
    intro p hp
    rw [List.countP_map, List.countP_map]
    by_cases hpg : p.1 = g
    · rw [if_pos hpg, if_pos (beq_iff_eq.mpr hpg)]
      have hc1 : ∀ i ∈ List.range S,
          ((fun e => keyLt (qdiv (w : ℚ) (d : ℚ), w, g)
              (dhondtKey (updateVotes votes g w) e)) ∘
            (fun i => (qdiv ((((g : String), w).2 : ℕ) : ℚ) (((i + 1 : ℕ)) : ℚ),
              ((g : String), w).1, i + 1))) i
          = decide (i < d - 1) := by
        intro i _
        simp only [Function.comp_apply, dhondtKey, hgw]
        rw [keyLt_same_tail, decide_eq_decide]
        rw [qdiv_nat_lt_iff w d (i + 1) hw (by omega) (Nat.succ_pos i)]
        omega
      rw [countP_congr_mem _ _ _ hc1, countP_range_lt (d - 1) S]
      omega
    · rw [if_neg hpg, beq_eq_false_iff_ne.mpr hpg]
      simp only [Bool.false_eq_true, if_false, Nat.add_zero]
      apply countP_mono_of_imp
      intro i _
      simp only [Function.comp_apply, dhondtKey]
      rw [getv_updateVotes_ne g p.1 w hpg]
      intro hkey
      exact keyLt_le_lt hle hkey
  apply le_trans (List.sum_le_sum hpt)
  apply le_of_eq
  rw [sum_map_add_nat, sum_map_ite (fun p => p.1 == g) (d - 1) votes,
    countP_keys_eq_one g 0 votes hnd hmem, Nat.mul_one]
  unfold dhondtQuotients
  rw [countP_flatMap]

/-- C8: D'Hondt allocation is monotonic in each group's votes: for every
votes mapping (with the dict's distinct group ids), every group `g`
present in it, and every `seats > 0`, replacing `g`'s vote count by a
larger one while holding all other groups fixed never decreases the
number of seats that `_alloc_dhondt` (with its deterministic tie-breaks
by quotient, then raw vote total, then group id, all descending) awards
to `g`. -/
theorem c8_dhondt_vote_monotone (votes : VMap) (g : String) (v w : ℕ) (S : ℕ)
    (hnd : (votes.map Prod.fst).Nodup) (hmem : (g, v) ∈ votes)
    (hvw : v ≤ w) (hS : 0 < S) :
    getv (allocDhondt votes (S : Int)).1 g
      ≤ getv (allocDhondt (updateVotes votes g w) (S : Int)).1 g := by
  have hnd2 : ((updateVotes votes g w).map Prod.fst).Nodup := by
    rw [keys_updateVotes]
    exact hnd
  have hmem2 : (g, w) ∈ updateVotes votes g w := mem_updateVotes_self votes g v w hmem
  rcases Nat.eq_zero_or_pos v with hv0 | hv
  · subst hv0
    rcases Nat.eq_zero_or_pos w with hw0 | hw
    · subst hw0
      rw [updateVotes_self_eq g 0 votes hnd hmem]
    · rw [dhondt_char_zero votes S g hnd hmem hS,
        dhondt_char_pos (updateVotes votes g w) S g w hnd2 hmem2 hw hS]
      have hcount : (List.range S).countP (fun i =>
          decide (i + 1 + (dhondtQuotients votes S).countP
            (fun e => keyLt ((0 : ℚ), 0, g) (dhondtKey votes e)) ≤ S))
          = S - (dhondtQuotients votes S).countP
              (fun e => keyLt ((0 : ℚ), 0, g) (dhondtKey votes e)) := by
        rw [countP_congr_mem _
          (fun i => decide (i < S - (dhondtQuotients votes S).countP
            (fun e => keyLt ((0 : ℚ), 0, g) (dhondtKey votes e))))
          (List.range S)
          (fun i _ => by rw [decide_eq_decide]; omega),
          countP_range_lt _ S]
        omega
      refine le_trans (le_of_eq hcount.symm) ?_
      apply countP_mono_of_imp
      intro i _ h1
      simp only [decide_eq_true_eq] at h1 ⊢
      have hb := dhondt_B_bound_zero votes S g w hnd hmem hw (i + 1) (by omega)
      omega
  · have hw : 0 < w := lt_of_lt_of_le hv hvw
    rw [dhondt_char_pos votes S g v hnd hmem hv hS,
      dhondt_char_pos (updateVotes votes g w) S g w hnd2 hmem2 hw hS]
    apply countP_mono_of_imp
    intro i _ h1
    simp only [decide_eq_true_eq] at h1 ⊢
    have hb := dhondt_B_mono votes S g v w hnd hmem hv hvw (i + 1) (by omega)
    omega

/-- Witness for C8 at votes A:1, B:3 with 3 seats, raising A to 5. -/
theorem c8_dhondt_vote_monotone_witness :
    ((([("A", 1), ("B", 3)] : VMap)).map Prod.fst).Nodup ∧
      ("A", 1) ∈ ([("A", 1), ("B", 3)] : VMap) ∧ 1 ≤ 5 ∧ 0 < 3 ∧
      getv (allocDhondt [("A", 1), ("B", 3)] ((3 : ℕ) : Int)).1 "A"
        ≤ getv (allocDhondt (updateVotes [("A", 1), ("B", 3)] "A" 5)
            ((3 : ℕ) : Int)).1 "A" :=
  ⟨by decide, by decide, by decide, by decide,
    c8_dhondt_vote_monotone [("A", 1), ("B", 3)] "A" 1 5 3 (by decide) (by decide)
      (by decide) (by decide)⟩

end ElectiveOffices
